import Mathlib

/-!
# word2vec training loop (fasttext.h): a shallow embedding and its properties

The definitions below follow `src/word2vec/src/include/fasttext.h` function by
function.  Conventions:

* C++ `for` loops become `forLoop`, a loop combinator that carries the loop
  state explicitly and needs a bound on the number of iterations; running out
  of that bound is reported as `Fault.outOfFuel`, so a result `Except.ok _`
  always means that the loop ran to completion.
* Machine integers (`int32_t`, `int64_t`) are modelled by `Int`; all statements
  are about runs in which no signed overflow happens.
* `real` arithmetic is modelled exactly, over `ℚ`.
* Situations in which the C++ program has no defined result (a failing
  `assert`, an element access outside a container) are reported as a `Fault`.
-/

namespace Word2Vec

/-! ## Data model -/

/-- Modelled from the spec: the enumeration `model_name` of `args.h`, which is not
part of the available sources.  The four objective kinds are the sub-commands
accepted by `main` (main.cpp, line 49). -/
inductive model_name where
  | skipgram
  | subword
  | subchar_chinese
  | subradical
  deriving DecidableEq, Repr

/-- Modelled from the spec: the configuration record `Args` of `args.h`, which is
not part of the available sources; only the fields that `fasttext.h` reads. -/
structure Args where
  /-- embedding dimension -/
  dim : Nat
  /-- window size -/
  ws : Int
  /-- number of epochs -/
  epoch : Int
  /-- number of worker threads -/
  thread : Int
  /-- base learning rate -/
  lr : ℚ
  /-- flush threshold of the local token counter -/
  lrUpdateRate : Int
  /-- verbosity level -/
  verbose : Int
  /-- training objective -/
  model : model_name

/-- Ways in which a run can leave the defined behaviour of the program. -/
inductive Fault where
  /-- the iteration bound handed to `forLoop` was too small -/
  | outOfFuel
  /-- the statement `assert(ngrams.size() == 1)` failed -/
  | assertion
  /-- the access `source[w]` was outside the vector -/
  | sourceIndex (w : Int)
  /-- row `i` of the input matrix does not exist -/
  | inputRow (i : Int)
  /-- row `i` of the output matrix does not exist -/
  | outputRow (i : Int)
  deriving DecidableEq, Repr

/-- One call `model.update(ngrams, target, lr)`. -/
structure UpdateCall where
  /-- first argument: the source group -/
  ngrams : List Int
  /-- second argument: the target id -/
  target : Int
  /-- third argument: the learning rate -/
  lr : ℚ
  deriving DecidableEq

/-- The loop `for (i = start; cond(i); i++) body(i)` on an explicit loop state.
The first argument bounds the number of evaluations of the loop condition. -/
def forLoop {σ : Type} (cond : Int → Bool) (body : Int → σ → Except Fault σ) :
    Nat → Int → σ → Except Fault σ
  | 0, _, _ => Except.error Fault.outOfFuel
  | fuel + 1, i, s =>
    if cond i then
      match body i s with
      | Except.ok s1 => forLoop cond body fuel (i + 1) s1
      | Except.error e => Except.error e
    else Except.ok s

/-! ## `FastText::skipgram` (fasttext.h, lines 109-123) -/

/-- Body of the inner loop of `skipgram` (lines 118-120) for offset `c`. -/
def skipgramOffset {M : Type} (update : M → List Int → Int → ℚ → M) (lr : ℚ)
    (ngrams : List Int) (target : List Int) (w c : Int) (model : M) : M :=
  if c ≠ 0 ∧ w + c ≥ 0 ∧ w + c < (target.length : Int) then
    update model ngrams (target.getD (w + c).toNat 0) lr
  else model

/-- Body of the outer loop of `skipgram` (lines 113-121) for position `w`;
`boundary` is the value that `uniform(model.rng)` returned for this position. -/
def skipgramPosition {M : Type} (update : M → List Int → Int → ℚ → M) (lr : ℚ)
    (source : List (List Int)) (target : List Int) (boundary : Int) (w : Int)
    (model : M) : Except Fault M :=
  match source.get? w.toNat with
  | none => Except.error (Fault.sourceIndex w)
  | some ngrams =>
    if ngrams.length = 1 then
      forLoop (fun c => decide (c ≤ boundary))
        (fun c m => Except.ok (skipgramOffset update lr ngrams target w c m))
        ((2 * boundary + 1).toNat + 1) (-boundary) model
    else Except.error Fault.assertion

/-- The function `FastText::skipgram`.  `update` is `Model::update` (model.h is not
part of the available sources) acting on the model state `M`; `draw w` is the
value returned by the call `uniform(model.rng)` made for position `w`. -/
def skipgram {M : Type} (update : M → List Int → Int → ℚ → M) (draw : Nat → Int)
    (model : M) (lr : ℚ) (source : List (List Int)) (target : List Int) :
    Except Fault M :=
  forLoop (fun w => decide (w < (target.length : Int)))
    (fun w m => skipgramPosition update lr source target (draw w.toNat) w m)
    (target.length + 1) 0 model

/-- A model whose state is the list of the `update` calls made so far. -/
def recordUpdate (calls : List UpdateCall) (ngrams : List Int) (target : Int) (lr : ℚ) :
    List UpdateCall :=
  calls ++ [UpdateCall.mk ngrams target lr]

/-! ### The sequence of updates stated by the specification -/

/-- The list `c, c + 1, ..., c + k - 1`. -/
def consecutive : Int → Nat → List Int
  | _, 0 => []
  | c, k + 1 => c :: consecutive (c + 1) k

/-- The integers `lo, ..., hi` in increasing order. -/
def intRange (lo hi : Int) : List Int :=
  consecutive lo (hi + 1 - lo).toNat

/-- The offsets used at position `w` of a line of length `n` with half-width `b`:
the `c` in `-b .. b`, increasing, with `c ≠ 0` and `0 ≤ w + c < n`. -/
def windowOffsets (n : Nat) (b : Int) (w : Nat) : List Int :=
  (intRange (-b) b).filter
    (fun c => decide (c ≠ 0 ∧ 0 ≤ (w : Int) + c ∧ (w : Int) + c < (n : Int)))

/-- The updates the specification prescribes for position `w`:
`update(source[w], target[w + c], lr)` for each window offset `c`. -/
def expectedAt (lr : ℚ) (source : List (List Int)) (target : List Int) (b : Int)
    (w : Nat) : List UpdateCall :=
  (windowOffsets target.length b w).map
    (fun c => UpdateCall.mk (source.getD w []) (target.getD ((w : Int) + c).toNat 0) lr)

/-- The updates the specification prescribes for a whole line: those of the
positions `w = 0, ..., n - 1`, in this order. -/
def expectedCalls (draw : Nat → Int) (lr : ℚ) (source : List (List Int))
    (target : List Int) : List UpdateCall :=
  (List.range target.length).flatMap
    (fun w => expectedAt lr source target (draw w) w)


/-- Performing a list of update calls on a model, in order. -/
def applyCalls {M : Type} (update : M → List Int → Int → ℚ → M) (model : M)
    (calls : List UpdateCall) : M :=
  calls.foldl (fun m u => update m u.ngrams u.target u.lr) model

/-! ## `FastText::trainThread` (fasttext.h, lines 125-157) -/

/-- Line 127: the byte offset handed to `utils::seek`,
`threadId * utils::size(ifs) / args_->thread`, with the truncating division of
C++.  `fileByteSize` is the value of `utils::size(ifs)` (utils.h is not part of
the available sources). -/
def trainThreadOffset (args : Args) (fileByteSize : Int) (threadId : Int) : Int :=
  Int.tdiv (threadId * fileByteSize) args.thread

/-- Line 138: `real(tokenCount_) / (args_->epoch * ntokens)`. -/
def trainThreadProcess (args : Args) (ntokens : Int) (tokenCount : Int) : ℚ :=
  (tokenCount : ℚ) / ((args.epoch * ntokens : Int) : ℚ)

/-- Lines 139-141: the learning rate for progress `process`,
`lr = baseLr * (1.0 - process); if (lr < 0.0001 * baseLr) lr = 0.0001 * baseLr`. -/
def annealedLr (baseLr process : ℚ) : ℚ :=
  let lr := baseLr * (1.0 - process)
  if lr < 0.0001 * baseLr then 0.0001 * baseLr else lr

/-- Lines 138-141: the learning rate that an iteration of the worker loop passes
to `skipgram` when it read the value `tokenCount` from the shared counter. -/
def trainThreadLr (args : Args) (ntokens : Int) (tokenCount : Int) : ℚ :=
  annealedLr args.lr (trainThreadProcess args ntokens tokenCount)

/-- Line 88 of `FastText::printInfo`: the learning rate written to the status line,
`double lr = args_->lr * (1.0 - progress)`. -/
def printInfoLr (args : Args) (progress : ℚ) : ℚ :=
  args.lr * (1.0 - progress)

/-- Modelled from the spec: the result of one call of `dict_->getLine`
(dictionary.h is not part of the available sources).  By section 3 a training
line consists of the number of tokens consumed and two parallel arrays, the
source groups, each a single-element group, and the target ids. -/
structure Line where
  /-- return value of `getLine`: the number of tokens consumed -/
  ntokens : Int
  /-- the source groups, one per position -/
  source : List (List Int)
  /-- the target ids, one per position -/
  target : List Int
  /-- the two arrays are parallel -/
  parallel : source.length = target.length
  /-- every source group has one element -/
  single : ∀ g ∈ source, g.length = 1

/-- Modelled from the spec: the operations of `Model` (model.h is not part of the
available sources) that `fasttext.h` uses.  `P` is the private state of one
`Model` instance, `M` the two shared matrices it points to. -/
structure ModelOps (P M : Type) where
  /-- effect of `model.update(ngrams, target, lr)` -/
  update : P × M → List Int → Int → ℚ → P × M
  /-- value of `model.getLoss()` -/
  getLoss : P → ℚ

/-- The local variables of one running `trainThread`, with two counters that
record what the thread has done. -/
structure Worker (P : Type) where
  /-- the thread's own `Model model` (line 129) -/
  model : P
  /-- `localTokenCount` (line 133) -/
  localTokenCount : Int
  /-- whether the thread has left the loop of line 137 -/
  exited : Bool
  /-- number of calls of `dict_->getLine` made so far -/
  linesRead : Nat
  /-- the calls of `model.update` made so far -/
  calls : List UpdateCall

/-- One status line written by `printInfo`. -/
structure Report where
  /-- the argument `progress` -/
  progress : ℚ
  /-- the learning rate shown -/
  lr : ℚ
  /-- the argument `loss` -/
  loss : ℚ

/-- The state of a training run: the members `tokenCount_`, `loss_`, `input_` and
`output_` of `FastText`, the running threads, and the status lines written. -/
structure TrainState (P M : Type) where
  /-- the atomic `tokenCount_` -/
  tokenCount : Int
  /-- the atomic `loss_` -/
  loss : ℚ
  /-- the matrices `input_` and `output_` -/
  matrices : M
  /-- the thread with a given `threadId` -/
  workers : Nat → Worker P
  /-- the status lines written to `std::cerr` -/
  reports : List Report

/-- The update operation of a model that also records its calls. -/
def loggedUpdate {P M : Type} (ops : ModelOps P M) (s : (P × M) × List UpdateCall)
    (ngrams : List Int) (target : Int) (lr : ℚ) : (P × M) × List UpdateCall :=
  (ops.update s.1 ngrams target lr, recordUpdate s.2 ngrams target lr)

/-- Lines 142-146: the `skipgram` branch of the loop body of `trainThread`, on the
line returned by `getLine`; it gives the new thread state and matrices. -/
def trainThreadRead {P M : Type} (ops : ModelOps P M) (args : Args) (lr : ℚ)
    (line : Line) (draw : Nat → Int) (wk : Worker P) (mats : M) :
    Except Fault (Worker P × M) :=
  if args.model = model_name.skipgram then
    match skipgram (loggedUpdate ops) draw ((wk.model, mats), wk.calls) lr
        line.source line.target with
    | Except.ok r =>
      Except.ok
        ({ model := r.1.1
           localTokenCount := wk.localTokenCount + line.ntokens
           exited := wk.exited
           linesRead := wk.linesRead + 1
           calls := r.2 }, r.1.2)
    | Except.error e => Except.error e
  else Except.ok (wk, mats)

/-- Lines 147-152: the flush of the local token count at the end of the loop
body of `trainThread`. -/
def trainThreadFlush {P M : Type} (ops : ModelOps P M) (args : Args) (threadId : Nat)
    (s : TrainState P M) (wk : Worker P) (mats : M) : TrainState P M :=
  if wk.localTokenCount > args.lrUpdateRate then
    { tokenCount := s.tokenCount + wk.localTokenCount
      loss := if threadId = 0 ∧ args.verbose > 1 then ops.getLoss wk.model else s.loss
      matrices := mats
      workers := Function.update s.workers threadId
        { model := wk.model
          localTokenCount := 0
          exited := wk.exited
          linesRead := wk.linesRead
          calls := wk.calls }
      reports := s.reports }
  else
    { tokenCount := s.tokenCount
      loss := s.loss
      matrices := mats
      workers := Function.update s.workers threadId wk
      reports := s.reports }

/-- One atomic step of thread `threadId` in `trainThread`: the test of the loop
condition of line 137 followed either by one execution of the loop body
(lines 138-152), on the line that `getLine` returns and the values `draw` that the
random generator yields, or by the exit code (lines 154-156).  A thread that has
already left the loop does nothing. -/
def trainThreadIteration {P M : Type} (ops : ModelOps P M) (args : Args) (ntokens : Int)
    (threadId : Nat) (line : Line) (draw : Nat → Int) (s : TrainState P M) :
    Except Fault (TrainState P M) :=
  if (s.workers threadId).exited then Except.ok s
  else if s.tokenCount < args.epoch * ntokens then
    match trainThreadRead ops args (trainThreadLr args ntokens s.tokenCount) line draw
        (s.workers threadId) s.matrices with
    | Except.ok r => Except.ok (trainThreadFlush ops args threadId s r.1 r.2)
    | Except.error e => Except.error e
  else
    Except.ok
      { tokenCount := s.tokenCount
        loss := if threadId = 0 then ops.getLoss (s.workers threadId).model else s.loss
        matrices := s.matrices
        workers := Function.update s.workers threadId
          { model := (s.workers threadId).model
            localTokenCount := (s.workers threadId).localTokenCount
            exited := true
            linesRead := (s.workers threadId).linesRead
            calls := (s.workers threadId).calls }
        reports := s.reports }

/-! ## `FastText::printInfo` and `FastText::startThreads` -/

/-- The status line of `FastText::printInfo` (lines 85-107): the fields that do
not depend on the clock. -/
def printInfo (args : Args) (progress loss : ℚ) : Report :=
  { progress := progress * 100, lr := printInfoLr args progress, loss := loss }

/-- Lines 160-168 of `startThreads` together with lines 129-136 of each started
`trainThread`: the state in which the run begins.  `initModel threadId` is the
model built by `Model(input_, output_, args_, threadId)`. -/
def startThreads {P M : Type} (initModel : Nat → P) (matrices : M) : TrainState P M :=
  { tokenCount := 0
    loss := -1
    matrices := matrices
    workers := fun threadId =>
      { model := initModel threadId
        localTokenCount := 0
        exited := false
        linesRead := 0
        calls := [] }
    reports := [] }

/-- One poll of the monitor loop of `startThreads` (lines 171-178). -/
def monitorPoll {P M : Type} (args : Args) (ntokens : Int) (s : TrainState P M) :
    TrainState P M :=
  if s.tokenCount < args.epoch * ntokens then
    if s.loss ≥ 0 ∧ args.verbose > 1 then
      { tokenCount := s.tokenCount
        loss := s.loss
        matrices := s.matrices
        workers := s.workers
        reports := s.reports ++
          [printInfo args (trainThreadProcess args ntokens s.tokenCount) s.loss] }
    else s
  else s

/-- Lines 179-186 of `startThreads`: once the monitor loop is over and every
thread has been joined, the final status line at progress `1.0`. -/
def finalReport {P M : Type} (args : Args) (ntokens : Int) (s : TrainState P M) :
    TrainState P M :=
  if args.epoch * ntokens ≤ s.tokenCount
      ∧ (∀ i ∈ List.range args.thread.toNat, (s.workers i).exited = true)
      ∧ args.verbose > 0 then
    { tokenCount := s.tokenCount
      loss := s.loss
      matrices := s.matrices
      workers := s.workers
      reports := s.reports ++ [printInfo args 1.0 s.loss] }
  else s

/-- The steps of a training run. -/
inductive Event where
  /-- a step of the thread `threadId`; `line` and `draw` are what `getLine` and
  the random generator return if the step executes the loop body -/
  | iteration (threadId : Nat) (line : Line) (draw : Nat → Int)
  /-- a poll of the monitor -/
  | poll
  /-- the final report of `startThreads` -/
  | final

/-- The effect of one step of a training run. -/
def step {P M : Type} (ops : ModelOps P M) (args : Args) (ntokens : Int)
    (s : TrainState P M) : Event → Except Fault (TrainState P M)
  | Event.iteration threadId line draw =>
    trainThreadIteration ops args ntokens threadId line draw s
  | Event.poll => Except.ok (monitorPoll args ntokens s)
  | Event.final => Except.ok (finalReport args ntokens s)

/-- A run: the steps of a schedule, one after the other. -/
def run {P M : Type} (ops : ModelOps P M) (args : Args) (ntokens : Int) :
    TrainState P M → List Event → Except Fault (TrainState P M)
  | s, [] => Except.ok s
  | s, e :: es =>
    match step ops args ntokens s e with
    | Except.ok s1 => run ops args ntokens s1 es
    | Except.error f => Except.error f

/-- The step belongs to one of the threads `0, ..., threadCount - 1`. -/
def Event.threadBelow (threadCount : Int) : Event → Prop
  | Event.iteration threadId _ _ => (threadId : Int) < threadCount
  | _ => True

/-- The line that the step would read consumes at least `k` tokens. -/
def Event.tokensAtLeast (k : Int) : Event → Prop
  | Event.iteration _ line _ => k ≤ line.ntokens
  | _ => True

/-- Number of steps of worker threads in a schedule. -/
def iterationCount : List Event → Nat
  | [] => 0
  | Event.iteration _ _ _ :: es => iterationCount es + 1
  | _ :: es => iterationCount es

instance (threadCount : Int) : DecidablePred (Event.threadBelow threadCount) := by
  intro e
  cases e <;> unfold Event.threadBelow <;> infer_instance

instance (k : Int) : DecidablePred (Event.tokensAtLeast k) := by
  intro e
  cases e <;> unfold Event.tokensAtLeast <;> infer_instance

/-- The tokens that the threads `0, ..., threadCount - 1` have read but not yet
added to the shared counter. -/
def pendingTokens {P M : Type} (threadCount : Nat) (s : TrainState P M) : Int :=
  Finset.sum (Finset.range threadCount) (fun i => (s.workers i).localTokenCount)

/-- The invariant behind the termination of the run after `k` steps of worker
threads: either the token budget is reached, or all threads are still in their
loops, each local count lies between 0 and the flush threshold, and the shared
counter and the local counts together hold at least `k` tokens. -/
def BudgetInvariant {P M : Type} (args : Args) (ntokens : Int) (k : Nat)
    (s : TrainState P M) : Prop :=
  args.epoch * ntokens ≤ s.tokenCount
    ∨ ((k : Int) ≤ s.tokenCount + pendingTokens args.thread.toNat s
        ∧ (∀ i, 0 ≤ (s.workers i).localTokenCount
            ∧ (s.workers i).localTokenCount ≤ max args.lrUpdateRate 0)
        ∧ ∀ i, (s.workers i).exited = false)

/-! ## `main` (main.cpp, lines 39-59) -/

/-- Line 49 of `main`: whether the sub-command is one of the four for which
`train` is called. -/
def mainAccepts (command : String) : Bool :=
  !(command != "skipgram" && command != "subword" && command != "subchar_chinese"
    && command != "subradical")

/-! ## `FastText::train` and `FastText::saveVectors` -/

/-- Modelled from the spec: the accessors of `Dictionary` that `train` and
`saveVectors` use (dictionary.h is not part of the available sources). -/
structure Dictionary where
  /-- value of `nwords()`: size of the source vocabulary -/
  nwords : Nat
  /-- value of `ntargets()`: size of the target vocabulary -/
  ntargets : Nat
  /-- value of `getWord(i)` -/
  getWord : Int → String
  /-- value of `getTarget(i)` -/
  getTarget : Int → String

/-- Modelled from the spec: `Matrix` (matrix.h is not part of the available
sources), a dense store of `m` rows and `n` columns. -/
structure Matrix where
  /-- number of rows -/
  m : Nat
  /-- number of columns -/
  n : Nat
  /-- the entry in row `i`, column `j` -/
  entry : Nat → Nat → ℚ

/-- Row `i` of a matrix. -/
def Matrix.row (A : Matrix) (i : Nat) : List ℚ :=
  (List.range A.n).map (A.entry i)

/-- Modelled from the spec: `Vector` (vector.h is not part of the available
sources), the list of its entries. -/
abbrev Vector := List ℚ

/-- Modelled from the spec: the call `vec.zero()` (vector.h is not part of the
available sources): every entry becomes 0. -/
def Vector.zero (vec : Vector) : Vector :=
  vec.map (fun _ => 0)

/-- Modelled from the spec: the call `vec.addRow(A, i)` (vector.h is not part of the
available sources): row `i` of `A` is added to `vec`, entry by entry.  Reading a
row that the matrix does not have is the fault `fault i`. -/
def Vector.addRow (fault : Int → Fault) (vec : Vector) (A : Matrix) (i : Int) :
    Except Fault Vector :=
  if 0 ≤ i ∧ i < (A.m : Int) then
    Except.ok (List.zipWith (fun x y => x + y) vec (A.row i.toNat))
  else Except.error (fault i)

/-- Lines 74-78 of `FastText::train`: the two matrices it allocates, both with
`dict_->nwords()` rows and `args_->dim` columns.  `u` holds the values with which
`uniform` fills the input matrix; the output matrix is zero. -/
def train (dict : Dictionary) (args : Args) (u : Nat → Nat → ℚ) : Matrix × Matrix :=
  ({ m := dict.nwords, n := args.dim, entry := u },
   { m := dict.nwords, n := args.dim, entry := fun _ _ => 0 })

/-- One line of an export file, `ofs << word << " " << vec << std::endl`: the word
and the entries of the vector. -/
structure ExportLine where
  /-- the word written first -/
  word : String
  /-- the entries of `vec` written after it -/
  values : List ℚ

/-- Number of fields of an export line: the word, then one field per entry. -/
def ExportLine.fieldCount (l : ExportLine) : Nat :=
  1 + l.values.length

/-- The two files that `saveVectors` may write, `<output>.source` and
`<output>.target`, as lists of lines; `none` when the file is not created. -/
structure Exports where
  /-- the file `<output>.source` -/
  source : Option (List ExportLine)
  /-- the file `<output>.target` -/
  target : Option (List ExportLine)

/-- Body of the loops of `saveVectors` (lines 201-204 and 215-218) for index `i`.
The loop state is the vector `vec`, which both loops reuse, and the lines written
to the file so far. -/
def saveVectorsRow (fault : Int → Fault) (getName : Int → String) (A : Matrix) (i : Int)
    (st : Vector × List ExportLine) : Except Fault (Vector × List ExportLine) :=
  match Vector.addRow fault (Vector.zero st.1) A i with
  | Except.ok vec => Except.ok (vec, st.2 ++ [ExportLine.mk (getName i) vec])
  | Except.error e => Except.error e

/-- One of the two blocks of `saveVectors` (lines 195-207 and 209-221): when
`count > 0` the file is created and the loop writes one line per index below
`count`; otherwise no file is created.  The files are taken to open. -/
def saveVectorsFile (fault : Int → Fault) (getName : Int → String) (A : Matrix)
    (count : Int) (vec : Vector) : Except Fault (Vector × Option (List ExportLine)) :=
  if count > 0 then
    match forLoop (fun i => decide (i < count)) (saveVectorsRow fault getName A)
        (count.toNat + 1) 0 (vec, []) with
    | Except.ok st => Except.ok (st.1, some st.2)
    | Except.error e => Except.error e
  else Except.ok (vec, none)

/-- The function `FastText::saveVectors` (lines 189-222). -/
def saveVectors (dict : Dictionary) (args : Args) (input output : Matrix) :
    Except Fault Exports :=
  match saveVectorsFile Fault.inputRow dict.getWord input (dict.nwords : Int)
      (List.replicate args.dim 0) with
  | Except.error e => Except.error e
  | Except.ok r1 =>
    match saveVectorsFile Fault.outputRow dict.getTarget output (dict.ntargets : Int)
        r1.1 with
    | Except.error e => Except.error e
    | Except.ok r2 => Except.ok { source := r1.2, target := r2.2 }

/-- The lines that the specification prescribes for an export of `count` entries:
line `i` is the name of entry `i` followed by row `i` of the matrix. -/
def expectedExport (getName : Int → String) (A : Matrix) (count : Nat) :
    Option (List ExportLine) :=
  if 0 < count then
    some ((List.range count).map
      (fun (i : Nat) => ExportLine.mk (getName (i : Int)) (A.row i)))
  else none

/-! ## Concrete data used to instantiate the statements -/

/-- A configuration: one thread, one epoch, flush threshold 0, objective `skipgram`. -/
def sampleArgs : Args :=
  { dim := 1, ws := 2, epoch := 1, thread := 1, lr := 0.05, lrUpdateRate := 0,
    verbose := 0, model := model_name.skipgram }

/-- The configuration `sampleArgs` with the objective `subword`. -/
def sampleSubwordArgs : Args :=
  { dim := 1, ws := 2, epoch := 1, thread := 1, lr := 0.05, lrUpdateRate := 0,
    verbose := 0, model := model_name.subword }

/-- A training line of one token. -/
def sampleLine : Line :=
  { ntokens := 1, source := [[0]], target := [0], parallel := rfl,
    single := by decide }

/-- A model without state. -/
def sampleOps : ModelOps Unit Unit :=
  { update := fun s _ _ _ => s, getLoss := fun _ => 0 }

/-- A step of thread 0 on `sampleLine`, every draw being 1. -/
def sampleStep : Event :=
  Event.iteration 0 sampleLine (fun _ => 1)

/-- A dictionary with one source word and two targets. -/
def sampleDictionary : Dictionary :=
  { nwords := 1, ntargets := 2, getWord := fun _ => "a", getTarget := fun _ => "b" }

/-- A dictionary with two source words and one target. -/
def sampleSmallDictionary : Dictionary :=
  { nwords := 2, ntargets := 1, getWord := fun _ => "a", getTarget := fun _ => "b" }


/-! ## Loop lemmas -/

/-- A loop whose condition holds exactly for the next `k` indices and whose body
succeeds on them is the left fold of the body over those indices. -/
theorem forLoop_eq_foldl {σ : Type} (cond : Int → Bool) (body : Int → σ → Except Fault σ)
    (g : Int → σ → σ) :
    ∀ (k fuel : Nat) (c : Int) (s : σ), k < fuel →
      (∀ j : Nat, j < k → cond (c + j) = true) → cond (c + k) = false →
      (∀ j : Nat, j < k → ∀ t, body (c + j) t = Except.ok (g (c + j) t)) →
      forLoop cond body fuel c s
        = Except.ok ((consecutive c k).foldl (fun m i => g i m) s) := by
  intro k
  induction k with
  | zero =>
    intro fuel c s hf _ hstop _
    obtain ⟨f, rfl⟩ : ∃ f, fuel = f + 1 := ⟨fuel - 1, by omega⟩
    have h0 : cond c = false := by simpa using hstop
    simp [forLoop, consecutive, h0]
  | succ k ih =>
    intro fuel c s hf hgo hstop hbody
    obtain ⟨f, rfl⟩ : ∃ f, fuel = f + 1 := ⟨fuel - 1, by omega⟩
    have h0 : cond c = true := by simpa using hgo 0 (by omega)
    have hb : body c s = Except.ok (g c s) := by simpa using hbody 0 (by omega) s
    have hrec := ih f (c + 1) (g c s) (by omega)
      (fun j hj => by
        have := hgo (j + 1) (by omega)
        rw [show c + 1 + (j : Int) = c + ((j + 1 : Nat) : Int) by push_cast; ring]
        exact this)
      (by
        rw [show c + 1 + (k : Int) = c + ((k + 1 : Nat) : Int) by push_cast; ring]
        exact hstop)
      (fun j hj t => by
        have := hbody (j + 1) (by omega) t
        rw [show c + 1 + (j : Int) = c + ((j + 1 : Nat) : Int) by push_cast; ring]
        exact this)
    simp [forLoop, consecutive, h0, hb, hrec]

theorem consecutive_length : ∀ (k : Nat) (c : Int), (consecutive c k).length = k := by
  intro k
  induction k with
  | zero => intro c; rfl
  | succ k ih => intro c; simp [consecutive, ih]

theorem mem_consecutive : ∀ (k : Nat) (c x : Int),
    x ∈ consecutive c k ↔ c ≤ x ∧ x < c + k := by
  intro k
  induction k with
  | zero => intro c x; simp [consecutive]
  | succ k ih =>
    intro c x
    simp only [consecutive, List.mem_cons, ih]
    push_cast
    omega

theorem consecutive_succ_right : ∀ (k : Nat) (c : Int),
    consecutive c (k + 1) = consecutive c k ++ [c + k] := by
  intro k
  induction k with
  | zero => intro c; simp [consecutive]
  | succ k ih =>
    intro c
    rw [consecutive, ih (c + 1)]
    simp only [consecutive, List.cons_append]
    congr 2
    push_cast
    ring_nf

theorem mem_intRange (lo hi x : Int) : x ∈ intRange lo hi ↔ lo ≤ x ∧ x ≤ hi := by
  unfold intRange
  rw [mem_consecutive]
  omega

theorem consecutive_pairwise : ∀ (k : Nat) (c : Int),
    (consecutive c k).Pairwise (fun a b => a < b) := by
  intro k
  induction k with
  | zero => intro c; simp [consecutive]
  | succ k ih =>
    intro c
    simp only [consecutive, List.pairwise_cons]
    refine ⟨fun x hx => ?_, ih (c + 1)⟩
    have := (mem_consecutive k (c + 1) x).1 hx
    omega


/-! ## `skipgram` performs the prescribed updates -/

/-- Folding the inner loop body over a list of offsets performs the updates of the
offsets that pass the guard of line 118. -/
theorem foldl_skipgramOffset {M : Type} (update : M → List Int → Int → ℚ → M) (lr : ℚ)
    (source : List (List Int)) (target : List Int) (w : Nat) :
    ∀ (L : List Int) (m : M),
      L.foldl (fun m c => skipgramOffset update lr (source.getD w []) target w c m) m
        = applyCalls update m
            ((L.filter (fun c => decide (c ≠ 0 ∧ 0 ≤ (w : Int) + c
                ∧ (w : Int) + c < (target.length : Int)))).map
              (fun c => UpdateCall.mk (source.getD w [])
                (target.getD ((w : Int) + c).toNat 0) lr)) := by
  intro L
  induction L with
  | nil => intro m; rfl
  | cons c L ih =>
    intro m
    simp only [List.foldl_cons, ih]
    by_cases h : c ≠ 0 ∧ 0 ≤ (w : Int) + c ∧ (w : Int) + c < (target.length : Int)
    · have h2 : c ≠ 0 ∧ (w : Int) + c ≥ 0 ∧ (w : Int) + c < (target.length : Int) := h
      simp [skipgramOffset, List.filter_cons, h, applyCalls]
    · have h2 : ¬ (c ≠ 0 ∧ (w : Int) + c ≥ 0 ∧ (w : Int) + c < (target.length : Int)) := h
      simp only [skipgramOffset, List.filter_cons, h, h2, if_false, decide_False]
      simp


/-- One position of `skipgram`: when `source[w]` exists and has one element, the
body of the outer loop performs exactly the updates prescribed for `w`. -/
theorem skipgramPosition_ok {M : Type} (update : M → List Int → Int → ℚ → M) (lr : ℚ)
    (source : List (List Int)) (target : List Int) (b : Int) (w : Nat) (m : M)
    (hw : w < source.length) (hone : (source.getD w []).length = 1) :
    skipgramPosition update lr source target b (w : Int) m
      = Except.ok (applyCalls update m (expectedAt lr source target b w)) := by
  have hget : source.get? w = some (source.getD w []) := by
    rw [List.getD_eq_getElem?_getD, List.get?_eq_getElem?, List.getElem?_eq_getElem hw]
    rfl
  unfold skipgramPosition
  simp only [Int.toNat_ofNat, hget, hone, if_true]
  rw [forLoop_eq_foldl (fun c => decide (c ≤ b))
      (fun c m => Except.ok (skipgramOffset update lr (source.getD w []) target w c m))
      (fun c m => skipgramOffset update lr (source.getD w []) target w c m)
      (b + 1 - -b).toNat ((2 * b + 1).toNat + 1) (-b) m (by omega)
      (fun j hj => by simp only [decide_eq_true_eq]; omega)
      (by simp only [decide_eq_false_iff_not]; omega)
      (fun j _ t => rfl)]
  rw [foldl_skipgramOffset]
  rfl

/-- Folding over the indices `c, c + 1, ...` is folding over `List.range'`. -/
theorem foldl_consecutive_nat {σ : Type} (G : Nat → σ → σ) :
    ∀ (k c : Nat) (s : σ),
      (consecutive (c : Int) k).foldl (fun m i => G i.toNat m) s
        = (List.range' c k).foldl (fun m j => G j m) s := by
  intro k
  induction k with
  | zero => intro c s; rfl
  | succ k ih =>
    intro c s
    have := ih (c + 1) (G c s)
    simp only [consecutive, List.foldl_cons, List.range'_succ, Int.toNat_ofNat]
    rw [← this]
    rfl

theorem applyCalls_append {M : Type} (update : M → List Int → Int → ℚ → M) (m : M)
    (xs ys : List UpdateCall) :
    applyCalls update m (xs ++ ys) = applyCalls update (applyCalls update m xs) ys := by
  simp [applyCalls]

theorem applyCalls_flatMap {M : Type} (update : M → List Int → Int → ℚ → M)
    (f : Nat → List UpdateCall) :
    ∀ (L : List Nat) (m : M),
      applyCalls update m (L.flatMap f)
        = L.foldl (fun m w => applyCalls update m (f w)) m := by
  intro L
  induction L with
  | nil => intro m; rfl
  | cons a L ih => intro m; simp [List.flatMap_cons, applyCalls_append, ih]

/-- On a line whose first `target.size()` source groups exist and have one
element each, `skipgram` returns, and the model it leaves is the given one after
the prescribed updates, in the prescribed order. -/
theorem skipgram_ok {M : Type} (update : M → List Int → Int → ℚ → M) (draw : Nat → Int)
    (m : M) (lr : ℚ) (source : List (List Int)) (target : List Int)
    (hlen : target.length ≤ source.length)
    (hone : ∀ w, w < target.length → (source.getD w []).length = 1) :
    skipgram update draw m lr source target
      = Except.ok (applyCalls update m (expectedCalls draw lr source target)) := by
  unfold skipgram
  rw [forLoop_eq_foldl (fun w => decide (w < (target.length : Int)))
      (fun w m => skipgramPosition update lr source target (draw w.toNat) w m)
      (fun w m => applyCalls update m (expectedAt lr source target (draw w.toNat) w.toNat))
      target.length (target.length + 1) 0 m (by omega)
      (fun j hj => by simp only [decide_eq_true_eq]; omega)
      (by simp only [decide_eq_false_iff_not]; omega)
      (fun j hj t => by
        simp only [zero_add, Int.toNat_ofNat]
        exact skipgramPosition_ok update lr source target (draw j) j t (by omega)
          (hone j hj))]
  have h := foldl_consecutive_nat
    (fun w m => applyCalls update m (expectedAt lr source target (draw w) w))
    target.length 0 m
  simp only [Nat.cast_zero] at h
  rw [h, expectedCalls, applyCalls_flatMap, List.range_eq_range']

theorem applyCalls_recordUpdate (acc calls : List UpdateCall) :
    applyCalls recordUpdate acc calls = acc ++ calls := by
  induction calls generalizing acc with
  | nil => simp [applyCalls]
  | cons u us ih =>
    have := ih (acc ++ [u])
    simp only [applyCalls, List.foldl_cons, recordUpdate] at this ⊢
    rw [this]
    simp


/-- Widening the window by one adds the offsets `-(b + 1)` and `b + 1`. -/
theorem intRange_widen (b : Nat) :
    intRange (-((b : Int) + 1)) ((b : Int) + 1)
      = (-((b : Int) + 1)) :: (intRange (-(b : Int)) b ++ [(b : Int) + 1]) := by
  unfold intRange
  have hk : ((b : Int) + 1 + 1 - -((b : Int) + 1)).toNat
      = ((b : Int) + 1 - -(b : Int)).toNat + 1 + 1 := by omega
  have hc : -((b : Int) + 1) + 1 = -(b : Int) := by ring
  have he : -(b : Int) + (((b : Int) + 1 - -(b : Int)).toNat : Int) = (b : Int) + 1 := by omega
  rw [hk, consecutive, consecutive_succ_right, hc, he]

/-- Number of updates at position `w` with half-width `b ≥ 0`. -/
theorem windowOffsets_length_nat (n w : Nat) (hw : w < n) :
    ∀ b : Nat, ((windowOffsets n (b : Int) w).length : Int)
      = min (w : Int) b + min ((n : Int) - 1 - w) b := by
  intro b
  induction b with
  | zero =>
    have h0 : intRange (-((0 : Nat) : Int)) ((0 : Nat) : Int) = [0] := by
      simp [intRange, consecutive]
    simp only [windowOffsets, h0]
    simp
    omega
  | succ b ih =>
    have hcast : (((b + 1 : Nat)) : Int) = (b : Int) + 1 := by push_cast; ring
    simp only [windowOffsets] at ih ⊢
    rw [hcast, intRange_widen, List.filter_cons, List.filter_append, List.filter_cons,
      List.filter_nil]
    generalize List.filter _ (intRange (-(b : Int)) b) = F at ih ⊢
    have hneg : decide (-((b : Int) + 1) ≠ 0 ∧ 0 ≤ (w : Int) + -((b : Int) + 1)
        ∧ (w : Int) + -((b : Int) + 1) < (n : Int)) = decide ((b : Int) + 1 ≤ w) := by
      apply decide_eq_decide.2
      omega
    have hpos : decide ((b : Int) + 1 ≠ 0 ∧ 0 ≤ (w : Int) + ((b : Int) + 1)
        ∧ (w : Int) + ((b : Int) + 1) < (n : Int))
          = decide ((b : Int) + 1 ≤ (n : Int) - 1 - w) := by
      apply decide_eq_decide.2
      omega
    rw [hneg, hpos]
    by_cases h1 : (b : Int) + 1 ≤ w <;> by_cases h2 : (b : Int) + 1 ≤ (n : Int) - 1 - w
    all_goals
      simp only [h1, h2, decide_True, decide_False, if_true, if_false, List.length_cons,
        List.length_append, List.length_nil, Bool.false_eq_true]
      push_cast
      omega


/-- C1. `FastText::skipgram`, run on a line whose target has length `n`, whose
source has at least `n` groups, all of one element, with drawn half-widths
`draw 0, ..., draw (n - 1)` in `[1, ws]` (`ws` the window size, the range of
`uniform` in line 111), returns, and the sequence of its
calls to `model.update` is exactly: for `w = 0, ..., n - 1` in order and for the
offsets `c = -draw w, ..., draw w` in increasing order with `c ≠ 0` and
`0 ≤ w + c < n`, the call `update(source[w], target[w + c], lr)`.  Position `w`
issues `min(w, draw w) + min(n - 1 - w, draw w)` updates, which is at most
`2 * draw w ≤ 2 * ws`. -/
theorem skipgram_update_sequence (args : Args) (draw : Nat → Int) (lr : ℚ)
    (source : List (List Int)) (target : List Int)
    (hlen : target.length ≤ source.length)
    (hone : ∀ g ∈ source, g.length = 1)
    (hdraw : ∀ w, w < target.length → 1 ≤ draw w ∧ draw w ≤ args.ws) :
    skipgram recordUpdate draw [] lr source target
        = Except.ok (expectedCalls draw lr source target)
      ∧ ∀ w, w < target.length →
          ((expectedAt lr source target (draw w) w).length : Int)
              = min (w : Int) (draw w) + min ((target.length : Int) - 1 - w) (draw w)
            ∧ ((expectedAt lr source target (draw w) w).length : Int) ≤ 2 * draw w
            ∧ 2 * draw w ≤ 2 * args.ws := by
  have hsingle : ∀ w, w < target.length → (source.getD w []).length = 1 := by
    intro w hw
    have hws : w < source.length := by omega
    apply hone
    rw [List.getD_eq_getElem?_getD, List.getElem?_eq_getElem hws]
    exact List.getElem_mem hws
  refine ⟨?_, ?_⟩
  · rw [skipgram_ok recordUpdate draw [] lr source target hlen hsingle,
      applyCalls_recordUpdate]
    rfl
  · intro w hw
    obtain ⟨h1, h2⟩ := hdraw w hw
    have hcount : ((expectedAt lr source target (draw w) w).length : Int)
        = min (w : Int) (draw w) + min ((target.length : Int) - 1 - w) (draw w) := by
      have h := windowOffsets_length_nat target.length w hw (draw w).toNat
      have hb : (((draw w).toNat : Nat) : Int) = draw w := by omega
      rw [hb] at h
      simpa [expectedAt] using h
    refine ⟨hcount, ?_, by omega⟩
    rw [hcount]
    omega

/-- The scenario of the specification: on `target = [0, 1, 2, 3]` with half-width 1
at position 1 (and 2 elsewhere) the calls are those listed; position 1 issues
exactly the updates to `target[0]` and `target[2]`. -/
theorem skipgram_update_sequence_witness :
    skipgram recordUpdate (fun w => if w = 1 then 1 else 2) [] (1 / 40)
        [[0], [1], [2], [3]] [0, 1, 2, 3]
      = Except.ok
          [UpdateCall.mk [0] 1 (1 / 40), UpdateCall.mk [0] 2 (1 / 40),
           UpdateCall.mk [1] 0 (1 / 40), UpdateCall.mk [1] 2 (1 / 40),
           UpdateCall.mk [2] 0 (1 / 40), UpdateCall.mk [2] 1 (1 / 40),
           UpdateCall.mk [2] 3 (1 / 40),
           UpdateCall.mk [3] 1 (1 / 40), UpdateCall.mk [3] 2 (1 / 40)] :=
  (skipgram_update_sequence sampleArgs (fun w => if w = 1 then 1 else 2) (1 / 40)
    [[0], [1], [2], [3]] [0, 1, 2, 3] (by decide) (by decide) (by decide)).1.trans rfl

/-- The scenario of the specification at position `w = 1` of `target = [0, 1, 2, 3]`:
half-width 1 gives exactly the updates to `target[0]` and `target[2]`. -/
theorem skipgramPosition_scenario_boundary_one :
    skipgramPosition recordUpdate (1 / 40) [[0], [1], [2], [3]] [0, 1, 2, 3] 1 1 []
      = Except.ok [UpdateCall.mk [1] 0 (1 / 40), UpdateCall.mk [1] 2 (1 / 40)] := rfl

/-- The scenario of the specification at position `w = 1` of `target = [0, 1, 2, 3]`:
half-width 2 gives exactly three updates, to `target[0]`, `target[2]`, `target[3]`. -/
theorem skipgramPosition_scenario_boundary_two :
    skipgramPosition recordUpdate (1 / 40) [[0], [1], [2], [3]] [0, 1, 2, 3] 2 1 []
      = Except.ok [UpdateCall.mk [1] 0 (1 / 40), UpdateCall.mk [1] 2 (1 / 40),
          UpdateCall.mk [1] 3 (1 / 40)] := rfl

/-- The assertion of line 116 stops `skipgram` on a source group of two elements. -/
theorem skipgram_assertion_fault :
    skipgram recordUpdate (fun _ => 1) [] (1 / 40) [[0], [1, 5]] [0, 1]
      = Except.error Fault.assertion := rfl

/-- The access `source[w]` leaves the vector when the source is shorter than the
target. -/
theorem skipgram_sourceIndex_fault :
    skipgram recordUpdate (fun _ => 1) [] (1 / 40) [[0]] [0, 1]
      = Except.error (Fault.sourceIndex 1) := rfl

/-! ## Learning rate and shard offsets -/

/-- C2. The learning rate that an iteration of the worker loop of `trainThread`
passes to `skipgram` is, for the progress `p = tokenCount / (epoch * ntokens)`,
the value `baseLr * (1 - p)` when that value is at least `0.0001 * baseLr`, and
`0.0001 * baseLr` otherwise; a value equal to the floor is left unchanged.  With
`baseLr = 0.05` the rate is `0.025` at `p = 0.5` and `0.000005` at `p = 0.9999`. -/
theorem trainThreadLr_eq_floored (args : Args) (ntokens tokenCount : Int) (baseLr p : ℚ) :
    trainThreadLr args ntokens tokenCount
        = annealedLr args.lr ((tokenCount : ℚ) / ((args.epoch * ntokens : Int) : ℚ))
      ∧ annealedLr baseLr p
        = (if 0.0001 * baseLr ≤ baseLr * (1 - p) then baseLr * (1 - p)
            else 0.0001 * baseLr)
      ∧ annealedLr 0.05 0.5 = 0.025
      ∧ annealedLr 0.05 0.9999 = 0.000005
      ∧ (0.05 : ℚ) * (1 - 0.9999) = 0.0001 * 0.05 := by
  refine ⟨rfl, ?_, ?_, ?_, ?_⟩
  · unfold annealedLr
    have h1 : (1.0 : ℚ) = 1 := by norm_num
    simp only [h1]
    by_cases h : 0.0001 * baseLr ≤ baseLr * (1 - p)
    · rw [if_pos h, if_neg (not_lt.2 h)]
    · rw [if_neg h, if_pos (not_le.1 h)]
  · unfold annealedLr
    norm_num
  · unfold annealedLr
    norm_num
  · norm_num

/-- C3. For a positive base learning rate the annealed learning rate of the worker
loop does not increase when the progress grows, and it is never below
`0.0001 * baseLr`. -/
theorem annealedLr_antitone_and_floored (baseLr p1 p2 : ℚ) (hbase : 0 < baseLr)
    (hp : p1 ≤ p2) :
    annealedLr baseLr p2 ≤ annealedLr baseLr p1
      ∧ ∀ p : ℚ, 0.0001 * baseLr ≤ annealedLr baseLr p := by
  have h1 : (1.0 : ℚ) = 1 := by norm_num
  have hmul : baseLr * (1 - p2) ≤ baseLr * (1 - p1) :=
    mul_le_mul_of_nonneg_left (by linarith) hbase.le
  refine ⟨?_, ?_⟩
  · unfold annealedLr
    simp only [h1]
    split_ifs with ha hb hb
    · exact le_refl _
    · exact not_lt.1 hb
    · exact absurd (lt_of_le_of_lt hmul hb) ha
    · exact hmul
  · intro p
    unfold annealedLr
    simp only [h1]
    split_ifs with ha
    · exact le_refl _
    · exact not_lt.1 ha

/-- An instance of C3: base rate `0.05`, progress `0.5` and `0.9999`. -/
theorem annealedLr_antitone_and_floored_witness :
    annealedLr 0.05 0.9999 ≤ annealedLr 0.05 0.5
      ∧ ∀ p : ℚ, 0.0001 * 0.05 ≤ annealedLr 0.05 p :=
  annealedLr_antitone_and_floored 0.05 0.5 0.9999 (by norm_num) (by norm_num)

/-- For a positive base learning rate, the rate shown by `printInfo` and the rate
used by the worker loop agree exactly up to progress `0.9999`. -/
theorem printInfoLr_eq_annealedLr_iff (args : Args) (p : ℚ) (hbase : 0 < args.lr) :
    printInfoLr args p = annealedLr args.lr p ↔ p ≤ 0.9999 := by
  have h1 : (1.0 : ℚ) = 1 := by norm_num
  unfold printInfoLr annealedLr
  simp only [h1]
  constructor
  · intro h
    by_contra hp
    have hlt : args.lr * (1 - p) < 0.0001 * args.lr := by
      have : (1 - p) < 0.0001 := by
        have := not_le.1 hp
        norm_num at this ⊢
        linarith
      calc args.lr * (1 - p) < args.lr * 0.0001 := mul_lt_mul_of_pos_left this hbase
        _ = 0.0001 * args.lr := by ring
    rw [if_pos hlt] at h
    exact absurd h (ne_of_lt hlt)
  · intro hp
    have hge : ¬ args.lr * (1 - p) < 0.0001 * args.lr := by
      have : (0.0001 : ℚ) ≤ 1 - p := by
        norm_num at hp ⊢
        linarith
      have h2 : args.lr * 0.0001 ≤ args.lr * (1 - p) :=
        mul_le_mul_of_nonneg_left this hbase.le
      intro hlt
      have h3 : args.lr * 0.0001 = 0.0001 * args.lr := by ring
      linarith
    rw [if_neg hge]

/-- C8, evaluated on the code.  At the final report (`printInfo(1.0, ...)`, line 184)
with base rate `0.05`, `printInfo` shows the rate `0`, while the annealed rate of
the worker loop at progress `1.0` is the floor `0.000005`. -/
theorem printInfoLr_final_report_differs :
    printInfoLr
        { dim := 100, ws := 5, epoch := 5, thread := 1, lr := 0.05, lrUpdateRate := 100,
          verbose := 2, model := model_name.skipgram } 1.0 = 0
      ∧ annealedLr 0.05 1.0 = 0.000005
      ∧ (printInfo
          { dim := 100, ws := 5, epoch := 5, thread := 1, lr := 0.05, lrUpdateRate := 100,
            verbose := 2, model := model_name.skipgram } 1.0 0).lr
          ≠ annealedLr 0.05 1.0 := by
  refine ⟨?_, ?_, ?_⟩
  · unfold printInfoLr
    norm_num
  · unfold annealedLr
    norm_num
  · unfold printInfo printInfoLr annealedLr
    norm_num

/-- C6. The byte offset at which thread `threadId` starts reading is
`floor(threadId * fileByteSize / threadCount)`; for `threadCount ≥ 1`,
`fileByteSize ≥ 0` and `0 ≤ threadId < threadCount` it lies in `[0, fileByteSize]`,
strictly below `fileByteSize` when `fileByteSize > 0`; thread 0 starts at offset
0, and the offsets do not decrease with `threadId`. -/
theorem trainThreadOffset_bounds (args : Args) (fileByteSize threadId : Int)
    (hthread : 1 ≤ args.thread) (hsize : 0 ≤ fileByteSize)
    (hid : 0 ≤ threadId ∧ threadId < args.thread) :
    trainThreadOffset args fileByteSize threadId
        = ⌊((threadId * fileByteSize : Int) : ℚ) / (args.thread : ℚ)⌋
      ∧ 0 ≤ trainThreadOffset args fileByteSize threadId
      ∧ trainThreadOffset args fileByteSize threadId ≤ fileByteSize
      ∧ (0 < fileByteSize → trainThreadOffset args fileByteSize threadId < fileByteSize)
      ∧ trainThreadOffset args fileByteSize 0 = 0
      ∧ ∀ other : Int, 0 ≤ other → other ≤ threadId →
          trainThreadOffset args fileByteSize other
            ≤ trainThreadOffset args fileByteSize threadId := by
  obtain ⟨hid0, hid1⟩ := hid
  have hpos : 0 < args.thread := by omega
  have hprod : 0 ≤ threadId * fileByteSize := mul_nonneg hid0 hsize
  have hdiv : ∀ t : Int, 0 ≤ t →
      trainThreadOffset args fileByteSize t = (t * fileByteSize) / args.thread := by
    intro t ht
    unfold trainThreadOffset
    exact Int.tdiv_eq_ediv (mul_nonneg ht hsize) hpos.le
  refine ⟨?_, ?_, ?_, ?_, ?_, ?_⟩
  · rw [hdiv threadId hid0]
    have hq : (0 : ℚ) < (args.thread : ℚ) := by exact_mod_cast hpos
    symm
    rw [Int.floor_eq_iff]
    constructor
    · rw [le_div_iff₀ hq]
      exact_mod_cast Int.ediv_mul_le (threadId * fileByteSize) (ne_of_gt hpos)
    · rw [div_lt_iff₀ hq]
      exact_mod_cast Int.lt_ediv_add_one_mul_self (threadId * fileByteSize) hpos
  · rw [hdiv threadId hid0]
    exact Int.ediv_nonneg hprod hpos.le
  · rw [hdiv threadId hid0]
    apply Int.ediv_le_of_le_mul hpos
    nlinarith
  · intro hs
    rw [hdiv threadId hid0]
    apply Int.ediv_lt_of_lt_mul hpos
    nlinarith
  · rw [hdiv 0 (le_refl 0)]
    simp
  · intro other ho hle
    rw [hdiv other ho, hdiv threadId hid0]
    apply Int.ediv_le_ediv hpos
    nlinarith

/-- An instance of C6: three threads on a file of ten bytes; thread 2 starts at
byte 6. -/
theorem trainThreadOffset_bounds_witness :
    trainThreadOffset
        { dim := 100, ws := 5, epoch := 5, thread := 3, lr := 0.05, lrUpdateRate := 100,
          verbose := 2, model := model_name.skipgram } 10 2 = 6 :=
  (trainThreadOffset_bounds
    { dim := 100, ws := 5, epoch := 5, thread := 3, lr := 0.05, lrUpdateRate := 100,
      verbose := 2, model := model_name.skipgram } 10 2
    (by decide) (by decide) (by decide)).1.trans (by norm_num [Int.floor_eq_iff])

/-! ## The worker loop as a transition system -/

theorem getD_length_one (source : List (List Int)) (hone : ∀ g ∈ source, g.length = 1)
    (w : Nat) (hw : w < source.length) : (source.getD w []).length = 1 := by
  apply hone
  rw [List.getD_eq_getElem?_getD, List.getElem?_eq_getElem hw]
  exact List.getElem_mem hw

/-- The `skipgram` branch of the loop body returns; it adds the tokens of the line
to the local count exactly when the objective is `skipgram`, and otherwise
changes nothing. -/
theorem trainThreadRead_spec {P M : Type} (ops : ModelOps P M) (args : Args) (lr : ℚ)
    (line : Line) (draw : Nat → Int) (wk : Worker P) (mats : M) :
    ∃ r, trainThreadRead ops args lr line draw wk mats = Except.ok r
      ∧ r.1.localTokenCount = wk.localTokenCount
          + (if args.model = model_name.skipgram then line.ntokens else 0)
      ∧ r.1.exited = wk.exited
      ∧ (args.model ≠ model_name.skipgram → r = (wk, mats)) := by
  by_cases hm : args.model = model_name.skipgram
  · have hok := skipgram_ok (loggedUpdate ops) draw ((wk.model, mats), wk.calls) lr
      line.source line.target (le_of_eq line.parallel.symm)
      (fun w hw => getD_length_one line.source line.single w (by
        rw [line.parallel]; exact hw))
    have hval : trainThreadRead ops args lr line draw wk mats
        = Except.ok
            ({ model := (applyCalls (loggedUpdate ops) ((wk.model, mats), wk.calls)
                  (expectedCalls draw lr line.source line.target)).1.1
               localTokenCount := wk.localTokenCount + line.ntokens
               exited := wk.exited
               linesRead := wk.linesRead + 1
               calls := (applyCalls (loggedUpdate ops) ((wk.model, mats), wk.calls)
                  (expectedCalls draw lr line.source line.target)).2 },
             (applyCalls (loggedUpdate ops) ((wk.model, mats), wk.calls)
                  (expectedCalls draw lr line.source line.target)).1.2) := by
      unfold trainThreadRead
      rw [if_pos hm, hok]
    refine ⟨_, hval, ?_, rfl, fun h => absurd hm h⟩
    rw [if_pos hm]
  · have hval : trainThreadRead ops args lr line draw wk mats = Except.ok (wk, mats) := by
      unfold trainThreadRead
      rw [if_neg hm]
    refine ⟨_, hval, ?_, rfl, fun _ => rfl⟩
    rw [if_neg hm]
    simp

/-- What one step of a worker thread does to the shared counter and to the
thread's local count, in each of its three cases: the thread has already left the
loop; the loop condition fails and the thread leaves; the loop body runs. -/
theorem trainThreadIteration_spec {P M : Type} (ops : ModelOps P M) (args : Args)
    (ntokens : Int) (threadId : Nat) (line : Line) (draw : Nat → Int)
    (s : TrainState P M) :
    ∃ s1, trainThreadIteration ops args ntokens threadId line draw s = Except.ok s1
      ∧ (∀ j, j ≠ threadId → s1.workers j = s.workers j)
      ∧ (((s.workers threadId).exited = true ∧ s1 = s)
        ∨ ((s.workers threadId).exited = false ∧ args.epoch * ntokens ≤ s.tokenCount
            ∧ s1.tokenCount = s.tokenCount ∧ s1.matrices = s.matrices
            ∧ (s1.workers threadId).exited = true
            ∧ (s1.workers threadId).localTokenCount = (s.workers threadId).localTokenCount
            ∧ (s1.workers threadId).linesRead = (s.workers threadId).linesRead
            ∧ (s1.workers threadId).calls = (s.workers threadId).calls)
        ∨ ((s.workers threadId).exited = false ∧ s.tokenCount < args.epoch * ntokens
            ∧ (s1.workers threadId).exited = false
            ∧ ((args.lrUpdateRate < (s.workers threadId).localTokenCount
                    + (if args.model = model_name.skipgram then line.ntokens else 0)
                ∧ s1.tokenCount = s.tokenCount + ((s.workers threadId).localTokenCount
                    + (if args.model = model_name.skipgram then line.ntokens else 0))
                ∧ (s1.workers threadId).localTokenCount = 0)
              ∨ ((s.workers threadId).localTokenCount
                    + (if args.model = model_name.skipgram then line.ntokens else 0)
                  ≤ args.lrUpdateRate
                ∧ s1.tokenCount = s.tokenCount
                ∧ (s1.workers threadId).localTokenCount
                    = (s.workers threadId).localTokenCount
                      + (if args.model = model_name.skipgram then line.ntokens
                          else 0))))) := by
  by_cases hex : (s.workers threadId).exited = true
  · have hval : trainThreadIteration ops args ntokens threadId line draw s = Except.ok s := by
      unfold trainThreadIteration
      rw [if_pos hex]
    exact ⟨s, hval, fun _ _ => rfl, Or.inl ⟨hex, rfl⟩⟩
  · have hex2 : (s.workers threadId).exited = false := by simpa using hex
    by_cases hlt : s.tokenCount < args.epoch * ntokens
    · obtain ⟨r, hr, hloc, hrex, _⟩ := trainThreadRead_spec ops args
        (trainThreadLr args ntokens s.tokenCount) line draw (s.workers threadId) s.matrices
      have hval : trainThreadIteration ops args ntokens threadId line draw s
          = Except.ok (trainThreadFlush ops args threadId s r.1 r.2) := by
        unfold trainThreadIteration
        rw [if_neg hex, if_pos hlt, hr]
      refine ⟨_, hval, ?_, Or.inr (Or.inr ⟨hex2, hlt, ?_, ?_⟩)⟩
      · intro j hj
        unfold trainThreadFlush
        split_ifs <;> simp [Function.update_noteq hj]
      · unfold trainThreadFlush
        split_ifs <;> simp [hrex, hex2]
      · rw [← hloc]
        unfold trainThreadFlush
        by_cases hfl : r.1.localTokenCount > args.lrUpdateRate
        · left
          rw [if_pos hfl]
          exact ⟨hfl, rfl, by simp only [Function.update_same]⟩
        · right
          rw [if_neg hfl]
          exact ⟨not_lt.1 hfl, rfl, by simp only [Function.update_same]⟩
    · have hval : trainThreadIteration ops args ntokens threadId line draw s
          = Except.ok
              { tokenCount := s.tokenCount
                loss := if threadId = 0 then ops.getLoss (s.workers threadId).model
                  else s.loss
                matrices := s.matrices
                workers := Function.update s.workers threadId
                  { model := (s.workers threadId).model
                    localTokenCount := (s.workers threadId).localTokenCount
                    exited := true
                    linesRead := (s.workers threadId).linesRead
                    calls := (s.workers threadId).calls }
                reports := s.reports } := by
        unfold trainThreadIteration
        rw [if_neg hex, if_neg hlt]
      refine ⟨_, hval, ?_, Or.inr (Or.inl ⟨hex2, not_lt.1 hlt, rfl, rfl, ?_, ?_, ?_, ?_⟩)⟩
      · intro j hj
        simp only [Function.update_noteq hj]
      all_goals simp only [Function.update_same]

theorem monitorPoll_spec {P M : Type} (args : Args) (ntokens : Int) (s : TrainState P M) :
    (monitorPoll args ntokens s).tokenCount = s.tokenCount
      ∧ (monitorPoll args ntokens s).workers = s.workers
      ∧ (monitorPoll args ntokens s).matrices = s.matrices := by
  unfold monitorPoll
  split_ifs <;> exact ⟨rfl, rfl, rfl⟩

theorem finalReport_spec {P M : Type} (args : Args) (ntokens : Int) (s : TrainState P M) :
    (finalReport args ntokens s).tokenCount = s.tokenCount
      ∧ (finalReport args ntokens s).workers = s.workers
      ∧ (finalReport args ntokens s).matrices = s.matrices := by
  unfold finalReport
  split_ifs <;> exact ⟨rfl, rfl, rfl⟩

theorem sum_change_one (N t : Nat) (ht : t < N) (f g : Nat → Int)
    (hagree : ∀ j, j ≠ t → g j = f j) :
    Finset.sum (Finset.range N) g = Finset.sum (Finset.range N) f - f t + g t := by
  have h1 : f t + Finset.sum ((Finset.range N).erase t) f = Finset.sum (Finset.range N) f :=
    Finset.add_sum_erase (Finset.range N) f (Finset.mem_range.2 ht)
  have h2 : g t + Finset.sum ((Finset.range N).erase t) g = Finset.sum (Finset.range N) g :=
    Finset.add_sum_erase (Finset.range N) g (Finset.mem_range.2 ht)
  have h3 : Finset.sum ((Finset.range N).erase t) g
      = Finset.sum ((Finset.range N).erase t) f :=
    Finset.sum_congr rfl (fun j hj => hagree j (Finset.ne_of_mem_erase hj))
  omega

theorem pendingTokens_le {P M : Type} (N : Nat) (s : TrainState P M) (R : Int)
    (h : ∀ i, (s.workers i).localTokenCount ≤ R) : pendingTokens N s ≤ (N : Int) * R := by
  unfold pendingTokens
  have := Finset.sum_le_sum (s := Finset.range N)
    (f := fun i => (s.workers i).localTokenCount) (g := fun _ => R) (fun i _ => h i)
  simpa using this

/-- Under the `skipgram` objective, a step of one of the threads
`0, ..., thread - 1` whose line has at least one token returns and moves the
invariant from `k` to `k + 1`; the other steps keep it. -/
theorem step_budgetInvariant {P M : Type} (ops : ModelOps P M) (args : Args)
    (ntokens : Int) (hmodel : args.model = model_name.skipgram) (k : Nat)
    (s : TrainState P M) (e : Event)
    (hthread : e.threadBelow args.thread) (htok : e.tokensAtLeast 1)
    (hinv : BudgetInvariant args ntokens k s) :
    ∃ s1, step ops args ntokens s e = Except.ok s1
      ∧ BudgetInvariant args ntokens (k + iterationCount [e]) s1 := by
  cases e with
  | poll =>
    refine ⟨_, rfl, ?_⟩
    obtain ⟨h1, h2, _⟩ := monitorPoll_spec args ntokens s
    simpa [BudgetInvariant, pendingTokens, iterationCount, h1, h2] using hinv
  | final =>
    refine ⟨_, rfl, ?_⟩
    obtain ⟨h1, h2, _⟩ := finalReport_spec args ntokens s
    simpa [BudgetInvariant, pendingTokens, iterationCount, h1, h2] using hinv
  | iteration threadId line draw =>
    have hid : (threadId : Int) < args.thread := hthread
    have hline : 1 ≤ line.ntokens := htok
    obtain ⟨s1, hs1, hother, hcase⟩ :=
      trainThreadIteration_spec ops args ntokens threadId line draw s
    refine ⟨s1, hs1, ?_⟩
    have hcount : iterationCount [Event.iteration threadId line draw] = 1 := rfl
    rw [hcount]
    rcases hcase with ⟨_, heq⟩ | ⟨_, hge, htc, _⟩ | ⟨hex, hlt, hex1, hflush⟩
    · subst heq
      rcases hinv with hdone | ⟨_, _, hrun⟩
      · exact Or.inl hdone
      · have := hrun threadId
        simp_all
    · exact Or.inl (by rw [htc]; exact hge)
    · rcases hinv with hdone | ⟨hsum, hloc, hrun⟩
      · exact absurd hdone (not_le.2 hlt)
      · right
        rw [if_pos hmodel] at hflush
        have hidN : threadId < args.thread.toNat := by omega
        have hpend := sum_change_one args.thread.toNat threadId hidN
          (fun i => (s.workers i).localTokenCount)
          (fun i => (s1.workers i).localTokenCount)
          (fun j hj => congrArg Worker.localTokenCount (hother j hj))
        beta_reduce at hpend
        have hl := hloc threadId
        refine ⟨?_, ?_, ?_⟩
        · unfold pendingTokens at hsum ⊢
          rcases hflush with ⟨_, h1, h2⟩ | ⟨_, h1, h2⟩ <;> omega
        · intro i
          by_cases hi : i = threadId
          · subst hi
            rcases hflush with ⟨_, _, h2⟩ | ⟨h0, _, h2⟩ <;> omega
          · rw [hother i hi]
            exact hloc i
        · intro i
          by_cases hi : i = threadId
          · subst hi
            exact hex1
          · rw [hother i hi]
            exact hrun i

/-- Under the `skipgram` objective, every schedule of steps of the threads
`0, ..., thread - 1` whose lines have at least one token runs to its end and
moves the invariant by the number of worker steps. -/
theorem run_budgetInvariant {P M : Type} (ops : ModelOps P M) (args : Args)
    (ntokens : Int) (hmodel : args.model = model_name.skipgram) :
    ∀ (evs : List Event) (k : Nat) (s : TrainState P M),
      (∀ e ∈ evs, e.threadBelow args.thread ∧ e.tokensAtLeast 1) →
      BudgetInvariant args ntokens k s →
      ∃ s1, run ops args ntokens s evs = Except.ok s1
        ∧ BudgetInvariant args ntokens (k + iterationCount evs) s1 := by
  intro evs
  induction evs with
  | nil => intro k s _ hinv; exact ⟨s, rfl, hinv⟩
  | cons e es ih =>
    intro k s hev hinv
    obtain ⟨s1, hs1, hinv1⟩ := step_budgetInvariant ops args ntokens hmodel k s e
      (hev e (List.mem_cons_self e es)).1 (hev e (List.mem_cons_self e es)).2 hinv
    obtain ⟨s2, hs2, hinv2⟩ := ih (k + iterationCount [e]) s1
      (fun x hx => hev x (List.mem_cons_of_mem e hx)) hinv1
    refine ⟨s2, ?_, ?_⟩
    · simp only [run, hs1, hs2]
    · have hc : k + iterationCount (e :: es) = k + iterationCount [e] + iterationCount es := by
        cases e <;> simp only [iterationCount] <;> omega
      rw [hc]
      exact hinv2

theorem startThreads_budgetInvariant {P M : Type} (args : Args) (ntokens : Int)
    (initModel : Nat → P) (matrices : M) :
    BudgetInvariant args ntokens 0 (startThreads initModel matrices) := by
  right
  refine ⟨?_, ?_, fun _ => rfl⟩
  · simp [startThreads, pendingTokens]
  · intro i
    simp [startThreads]

/-- C4. Under the `skipgram` objective, for a thread count of at least 1, any flush
threshold and any token budget `epoch * ntokens`: every schedule of steps of the
threads `0, ..., thread - 1` (interleaved with monitor steps in any way) in which
each line read has at least one token runs without fault, and once it contains
`epoch * ntokens + thread * max(lrUpdateRate, 0)` worker steps the shared
`tokenCount` has reached `epoch * ntokens`.  A worker step taken when
`tokenCount ≥ epoch * ntokens` leaves the thread outside its loop, reads no line,
issues no update and changes neither the matrices nor `tokenCount`. -/
theorem trainThread_reaches_budget {P M : Type} (ops : ModelOps P M) (args : Args)
    (ntokens : Int) (initModel : Nat → P) (matrices : M) (evs : List Event)
    (hmodel : args.model = model_name.skipgram) (hthread : 1 ≤ args.thread)
    (hev : ∀ e ∈ evs, e.threadBelow args.thread ∧ e.tokensAtLeast 1)
    (hlong : (args.epoch * ntokens + args.thread * max args.lrUpdateRate 0).toNat
      ≤ iterationCount evs) :
    (∃ s, run ops args ntokens (startThreads initModel matrices) evs = Except.ok s
        ∧ args.epoch * ntokens ≤ s.tokenCount)
      ∧ ∀ (s : TrainState P M) (threadId : Nat) (line : Line) (draw : Nat → Int),
          args.epoch * ntokens ≤ s.tokenCount →
          ∃ s1, step ops args ntokens s (Event.iteration threadId line draw) = Except.ok s1
            ∧ (s1.workers threadId).exited = true
            ∧ (s1.workers threadId).linesRead = (s.workers threadId).linesRead
            ∧ (s1.workers threadId).calls = (s.workers threadId).calls
            ∧ s1.matrices = s.matrices
            ∧ s1.tokenCount = s.tokenCount := by
  refine ⟨?_, ?_⟩
  · obtain ⟨s, hs, hinv⟩ := run_budgetInvariant ops args ntokens hmodel evs 0
      (startThreads initModel matrices) hev
      (startThreads_budgetInvariant args ntokens initModel matrices)
    refine ⟨s, hs, ?_⟩
    rcases hinv with hdone | ⟨hsum, hloc, _⟩
    · exact hdone
    · have hpend := pendingTokens_le args.thread.toNat s (max args.lrUpdateRate 0)
        (fun i => (hloc i).2)
      have hN : ((args.thread.toNat : Nat) : Int) = args.thread := by omega
      rw [hN] at hpend
      have hR : 0 ≤ max args.lrUpdateRate 0 := le_max_right _ _
      have hprod : 0 ≤ args.thread * max args.lrUpdateRate 0 :=
        mul_nonneg (by omega) hR
      generalize args.thread * max args.lrUpdateRate 0 = X at hpend hlong hprod
      push_cast at hsum
      omega
  · intro s threadId line draw hge
    obtain ⟨s1, hs1, _, hcase⟩ :=
      trainThreadIteration_spec ops args ntokens threadId line draw s
    refine ⟨s1, hs1, ?_⟩
    rcases hcase with ⟨hex, heq⟩ | ⟨_, _, htc, hmat, hex, _, hlines, hcalls⟩
        | ⟨_, hlt, _⟩
    · subst heq
      exact ⟨hex, rfl, rfl, rfl, rfl⟩
    · exact ⟨hex, hlines, hcalls, hmat, htc⟩
    · exact absurd hge (not_le.2 hlt)

/-- An instance of C4: one thread, budget of two tokens, flush threshold 0; after
two steps on lines of one token the counter has reached the budget. -/
theorem trainThread_reaches_budget_witness :
    ∃ s, run sampleOps sampleArgs 2 (startThreads (fun _ => ()) ())
          [sampleStep, sampleStep] = Except.ok s
      ∧ sampleArgs.epoch * 2 ≤ s.tokenCount :=
  (trainThread_reaches_budget sampleOps sampleArgs 2 (fun _ => ()) ()
    [sampleStep, sampleStep] rfl (by decide) (by decide) (by decide)).1

/-- A step keeps all local token counts non-negative when the line read has a
non-negative token count. -/
theorem step_localTokenCount_nonneg {P M : Type} (ops : ModelOps P M) (args : Args)
    (ntokens : Int) (s s1 : TrainState P M) (e : Event) (htok : e.tokensAtLeast 0)
    (hloc : ∀ i, 0 ≤ (s.workers i).localTokenCount)
    (hstep : step ops args ntokens s e = Except.ok s1) :
    ∀ i, 0 ≤ (s1.workers i).localTokenCount := by
  cases e with
  | poll =>
    have h : s1 = monitorPoll args ntokens s := (Except.ok.inj hstep).symm
    rw [h, (monitorPoll_spec args ntokens s).2.1]
    exact hloc
  | final =>
    have h : s1 = finalReport args ntokens s := (Except.ok.inj hstep).symm
    rw [h, (finalReport_spec args ntokens s).2.1]
    exact hloc
  | iteration threadId line draw =>
    have hline : 0 ≤ line.ntokens := htok
    obtain ⟨s2, hs2, hother, hcase⟩ :=
      trainThreadIteration_spec ops args ntokens threadId line draw s
    have heq : s2 = s1 := Except.ok.inj (hs2.symm.trans hstep)
    subst heq
    intro i
    by_cases hi : i = threadId
    · subst hi
      have hl := hloc i
      rcases hcase with ⟨_, heq⟩ | ⟨_, _, _, _, _, hsame, _⟩ | ⟨_, _, _, hflush⟩
      · rw [heq]; exact hl
      · rw [hsame]; exact hl
      · have hadd : 0 ≤ (if args.model = model_name.skipgram then line.ntokens else 0) := by
          split_ifs <;> omega
        rcases hflush with ⟨_, _, h2⟩ | ⟨_, _, h2⟩ <;> omega
    · rw [hother i hi]
      exact hloc i

theorem run_localTokenCount_nonneg {P M : Type} (ops : ModelOps P M) (args : Args)
    (ntokens : Int) :
    ∀ (evs : List Event) (s s1 : TrainState P M),
      (∀ e ∈ evs, e.tokensAtLeast 0) →
      (∀ i, 0 ≤ (s.workers i).localTokenCount) →
      run ops args ntokens s evs = Except.ok s1 →
      ∀ i, 0 ≤ (s1.workers i).localTokenCount := by
  intro evs
  induction evs with
  | nil =>
    intro s s1 _ hloc hrun
    have h : s = s1 := Except.ok.inj hrun
    rw [← h]
    exact hloc
  | cons e es ih =>
    intro s s1 hev hloc hrun
    unfold run at hrun
    cases hst : step ops args ntokens s e with
    | error f => rw [hst] at hrun; cases hrun
    | ok s2 =>
      rw [hst] at hrun
      exact ih s2 s1 (fun x hx => hev x (List.mem_cons_of_mem e hx))
        (step_localTokenCount_nonneg ops args ntokens s s2 e
          (hev e (List.mem_cons_self e es)) hloc hst) hrun

/-- C5. `startThreads` sets the shared `tokenCount` to 0, and from every state that
a run can reach (any threads, any interleaving of worker steps and monitor steps)
every step leaves `tokenCount` at least as large as before, provided every line
read has a non-negative token count.  A step that changes `tokenCount` is a
worker step whose loop body flushes: the thread's local count, including the
line just read, exceeds `lrUpdateRate`, is added to `tokenCount`, and the local
count is reset to 0. -/
theorem tokenCount_never_decreases {P M : Type} (ops : ModelOps P M) (args : Args)
    (ntokens : Int) (initModel : Nat → P) (matrices : M) (evs : List Event) (e : Event)
    (s s1 : TrainState P M)
    (hnonneg : ∀ x ∈ evs ++ [e], x.tokensAtLeast 0)
    (hreach : run ops args ntokens (startThreads initModel matrices) evs = Except.ok s)
    (hstep : step ops args ntokens s e = Except.ok s1) :
    (startThreads initModel matrices).tokenCount = 0
      ∧ s.tokenCount ≤ s1.tokenCount
      ∧ (s1.tokenCount ≠ s.tokenCount →
          ∃ threadId line draw, e = Event.iteration threadId line draw
            ∧ args.lrUpdateRate < (s.workers threadId).localTokenCount
                + (if args.model = model_name.skipgram then line.ntokens else 0)
            ∧ s1.tokenCount = s.tokenCount + ((s.workers threadId).localTokenCount
                + (if args.model = model_name.skipgram then line.ntokens else 0))
            ∧ (s1.workers threadId).localTokenCount = 0) := by
  have hloc : ∀ i, 0 ≤ (s.workers i).localTokenCount :=
    run_localTokenCount_nonneg ops args ntokens evs (startThreads initModel matrices) s
      (fun x hx => hnonneg x (List.mem_append_left [e] hx))
      (fun i => le_refl 0) hreach
  have he : e.tokensAtLeast 0 := hnonneg e (by simp)
  refine ⟨rfl, ?_⟩
  cases e with
  | poll =>
    have h : s1 = monitorPoll args ntokens s := (Except.ok.inj hstep).symm
    rw [h, (monitorPoll_spec args ntokens s).1]
    exact ⟨le_refl _, fun hne => absurd rfl hne⟩
  | final =>
    have h : s1 = finalReport args ntokens s := (Except.ok.inj hstep).symm
    rw [h, (finalReport_spec args ntokens s).1]
    exact ⟨le_refl _, fun hne => absurd rfl hne⟩
  | iteration threadId line draw =>
    have hline : 0 ≤ line.ntokens := he
    obtain ⟨s2, hs2, _, hcase⟩ :=
      trainThreadIteration_spec ops args ntokens threadId line draw s
    have heq : s2 = s1 := Except.ok.inj (hs2.symm.trans hstep)
    subst heq
    have hl := hloc threadId
    have hadd : 0 ≤ (if args.model = model_name.skipgram then line.ntokens else 0) := by
      split_ifs <;> omega
    rcases hcase with ⟨_, heq⟩ | ⟨_, _, htc, _⟩ | ⟨_, _, _, hflush⟩
    · rw [heq]
      exact ⟨le_refl _, fun hne => absurd rfl hne⟩
    · rw [htc]
      exact ⟨le_refl _, fun hne => absurd rfl hne⟩
    · rcases hflush with ⟨h0, h1, h2⟩ | ⟨_, h1, _⟩
      · exact ⟨by omega, fun _ => ⟨threadId, line, draw, rfl, h0, h1, h2⟩⟩
      · rw [h1]
        exact ⟨le_refl _, fun hne => absurd rfl hne⟩

/-- An instance of C5: the first step of thread 0 from the initial state, on a
line of one token with flush threshold 0, flushes and takes `tokenCount` from 0
to 1. -/
theorem tokenCount_never_decreases_witness :
    (startThreads (fun _ => ()) () : TrainState Unit Unit).tokenCount
        ≤ (trainThreadFlush sampleOps sampleArgs 0 (startThreads (fun _ => ()) ())
            { model := (), localTokenCount := 1, exited := false, linesRead := 1,
              calls := [] } ()).tokenCount
      ∧ (trainThreadFlush sampleOps sampleArgs 0 (startThreads (fun _ => ()) ())
            { model := (), localTokenCount := 1, exited := false, linesRead := 1,
              calls := [] } ()).tokenCount = 1 :=
  ⟨(tokenCount_never_decreases sampleOps sampleArgs 2 (fun _ => ()) () [] sampleStep
      (startThreads (fun _ => ()) ())
      (trainThreadFlush sampleOps sampleArgs 0 (startThreads (fun _ => ()) ())
        { model := (), localTokenCount := 1, exited := false, linesRead := 1,
          calls := [] } ())
      (by decide) rfl rfl).2.1, rfl⟩

/-- C9. `main` accepts the sub-commands `subword`, `subchar_chinese` and
`subradical`.  When the objective is not `skipgram`, a step of a thread that is in
its loop with local token count 0 reads no line, issues no update and leaves the
whole state as it was, for every `lrUpdateRate ≥ 0`.  Hence, with
`epoch * ntokens > 0`, every schedule runs without fault and ends in a state in
which `tokenCount` is still 0, below `epoch * ntokens`, the matrices are the
initial ones and every thread is as it started: in its loop, with no line read
and no update issued.  No thread ever leaves its loop. -/
theorem trainThread_not_skipgram_never_exits {P M : Type} (ops : ModelOps P M)
    (args : Args) (ntokens : Int) (initModel : Nat → P) (matrices : M)
    (hmodel : args.model ≠ model_name.skipgram) (hrate : 0 ≤ args.lrUpdateRate)
    (hbudget : 0 < args.epoch * ntokens) :
    (mainAccepts "subword" = true ∧ mainAccepts "subchar_chinese" = true
        ∧ mainAccepts "subradical" = true)
      ∧ (∀ (s : TrainState P M) (threadId : Nat) (line : Line) (draw : Nat → Int),
        s.tokenCount < args.epoch * ntokens →
        (s.workers threadId).exited = false →
        (s.workers threadId).localTokenCount = 0 →
        step ops args ntokens s (Event.iteration threadId line draw) = Except.ok s)
      ∧ ∀ evs : List Event,
          ∃ s, run ops args ntokens (startThreads initModel matrices) evs = Except.ok s
            ∧ s.tokenCount = 0
            ∧ s.tokenCount < args.epoch * ntokens
            ∧ s.matrices = matrices
            ∧ ∀ threadId, (s.workers threadId).exited = false
                ∧ (s.workers threadId).localTokenCount = 0
                ∧ (s.workers threadId).linesRead = 0
                ∧ (s.workers threadId).calls = [] := by
  have hiter : ∀ (s : TrainState P M) (threadId : Nat) (line : Line) (draw : Nat → Int),
      s.tokenCount < args.epoch * ntokens →
      (s.workers threadId).exited = false →
      (s.workers threadId).localTokenCount = 0 →
      step ops args ntokens s (Event.iteration threadId line draw) = Except.ok s := by
    intro s threadId line draw hlt hex hzero
    have hread : trainThreadRead ops args (trainThreadLr args ntokens s.tokenCount) line
        draw (s.workers threadId) s.matrices = Except.ok (s.workers threadId, s.matrices) := by
      unfold trainThreadRead
      rw [if_neg hmodel]
    have hnoflush : ¬ (s.workers threadId).localTokenCount > args.lrUpdateRate := by
      rw [hzero]
      omega
    have hex2 : ¬ (s.workers threadId).exited = true := by simp [hex]
    show trainThreadIteration ops args ntokens threadId line draw s = Except.ok s
    unfold trainThreadIteration
    rw [if_neg hex2, if_pos hlt, hread]
    unfold trainThreadFlush
    simp only [if_neg hnoflush, Function.update_eq_self]
  refine ⟨⟨by decide, by decide, by decide⟩, hiter, ?_⟩
  suffices hgen : ∀ (evs : List Event) (s : TrainState P M),
      s.tokenCount = 0 → s.matrices = matrices →
      (∀ threadId, (s.workers threadId).exited = false
          ∧ (s.workers threadId).localTokenCount = 0
          ∧ (s.workers threadId).linesRead = 0
          ∧ (s.workers threadId).calls = []) →
      ∃ s1, run ops args ntokens s evs = Except.ok s1
        ∧ s1.tokenCount = 0
        ∧ s1.tokenCount < args.epoch * ntokens
        ∧ s1.matrices = matrices
        ∧ ∀ threadId, (s1.workers threadId).exited = false
            ∧ (s1.workers threadId).localTokenCount = 0
            ∧ (s1.workers threadId).linesRead = 0
            ∧ (s1.workers threadId).calls = [] by
    intro evs
    exact hgen evs (startThreads initModel matrices) rfl rfl
      (fun _ => ⟨rfl, rfl, rfl, rfl⟩)
  intro evs
  induction evs with
  | nil =>
    intro s h0 hm hw
    exact ⟨s, rfl, h0, by rw [h0]; exact hbudget, hm, hw⟩
  | cons e es ih =>
    intro s h0 hm hw
    have hstep : ∃ s2, step ops args ntokens s e = Except.ok s2 ∧ s2.tokenCount = 0
        ∧ s2.matrices = matrices ∧ s2.workers = s.workers := by
      cases e with
      | poll =>
        obtain ⟨h1, h2, h3⟩ := monitorPoll_spec args ntokens s
        exact ⟨_, rfl, h1.trans h0, h3.trans hm, h2⟩
      | final =>
        obtain ⟨h1, h2, h3⟩ := finalReport_spec args ntokens s
        exact ⟨_, rfl, h1.trans h0, h3.trans hm, h2⟩
      | iteration threadId line draw =>
        exact ⟨s, hiter s threadId line draw (by rw [h0]; exact hbudget)
          (hw threadId).1 (hw threadId).2.1, h0, hm, rfl⟩
    obtain ⟨s2, hs2, h20, h2m, h2w⟩ := hstep
    obtain ⟨s3, hs3, hrest⟩ := ih s2 h20 h2m (by rw [h2w]; exact hw)
    refine ⟨s3, ?_, hrest⟩
    simp only [run, hs2, hs3]

/-- An instance of C9: objective `subword`, budget of two tokens; after three steps
of thread 0 the counter is still 0 and the thread is still in its loop. -/
theorem trainThread_not_skipgram_never_exits_witness :
    ∃ s, run sampleOps sampleSubwordArgs 2 (startThreads (fun _ => ()) ())
          [sampleStep, sampleStep, sampleStep] = Except.ok s
      ∧ s.tokenCount = 0
      ∧ s.tokenCount < sampleSubwordArgs.epoch * 2
      ∧ s.matrices = ()
      ∧ ∀ threadId, (s.workers threadId).exited = false
          ∧ (s.workers threadId).localTokenCount = 0
          ∧ (s.workers threadId).linesRead = 0
          ∧ (s.workers threadId).calls = [] :=
  (trainThread_not_skipgram_never_exits sampleOps sampleSubwordArgs 2 (fun _ => ()) ()
    (by decide) (by decide) (by decide)).2.2 [sampleStep, sampleStep, sampleStep]

/-! ## `saveVectors` -/

/-- A loop whose condition holds for the next `k + 1` indices and whose body
succeeds on the first `k` of them and fails on the next stops with that fault. -/
theorem forLoop_error {σ : Type} (cond : Int → Bool) (body : Int → σ → Except Fault σ)
    (g : Int → σ → σ) (e : Fault) :
    ∀ (k fuel : Nat) (c : Int) (s : σ), k < fuel →
      (∀ j : Nat, j ≤ k → cond (c + j) = true) →
      (∀ j : Nat, j < k → ∀ t, body (c + j) t = Except.ok (g (c + j) t)) →
      (∀ t, body (c + k) t = Except.error e) →
      forLoop cond body fuel c s = Except.error e := by
  intro k
  induction k with
  | zero =>
    intro fuel c s hf hgo _ hfail
    obtain ⟨f, rfl⟩ : ∃ f, fuel = f + 1 := ⟨fuel - 1, by omega⟩
    have h0 : cond c = true := by simpa using hgo 0 (le_refl 0)
    have hb : body c s = Except.error e := by simpa using hfail s
    simp [forLoop, h0, hb]
  | succ k ih =>
    intro fuel c s hf hgo hbody hfail
    obtain ⟨f, rfl⟩ : ∃ f, fuel = f + 1 := ⟨fuel - 1, by omega⟩
    have h0 : cond c = true := by simpa using hgo 0 (by omega)
    have hb : body c s = Except.ok (g c s) := by simpa using hbody 0 (by omega) s
    have hrec := ih f (c + 1) (g c s) (by omega)
      (fun j hj => by
        have := hgo (j + 1) (by omega)
        rw [show c + 1 + (j : Int) = c + ((j + 1 : Nat) : Int) by push_cast; ring]
        exact this)
      (fun j hj t => by
        have := hbody (j + 1) (by omega) t
        rw [show c + 1 + (j : Int) = c + ((j + 1 : Nat) : Int) by push_cast; ring]
        exact this)
      (fun t => by
        have := hfail t
        rw [show c + 1 + (k : Int) = c + ((k + 1 : Nat) : Int) by push_cast; ring]
        exact this)
    simp [forLoop, h0, hb, hrec]

theorem zipWith_zero_add : ∀ (v r : List ℚ), v.length = r.length →
    List.zipWith (fun x y => x + y) (v.map (fun _ => (0 : ℚ))) r = r := by
  intro v
  induction v with
  | nil =>
    intro r h
    have : r = [] := List.length_eq_zero.1 h.symm
    simp [this]
  | cons a v ih =>
    intro r h
    cases r with
    | nil => simp at h
    | cons b r =>
      simp only [List.length_cons, Nat.add_right_cancel_iff] at h
      simp only [List.map_cons, List.zipWith_cons_cons, zero_add, ih r h]

theorem Matrix.row_length (A : Matrix) (i : Nat) : (A.row i).length = A.n := by
  simp [Matrix.row]

/-- On an existing row the loop body of `saveVectors` returns: `vec` becomes the
zeroed vector plus the row, and the line of the index is appended. -/
theorem saveVectorsRow_ok (fault : Int → Fault) (getName : Int → String) (A : Matrix)
    (i : Int) (hi : 0 ≤ i ∧ i < (A.m : Int)) (st : Vector × List ExportLine) :
    saveVectorsRow fault getName A i st
      = Except.ok
          (List.zipWith (fun x y => x + y) (Vector.zero st.1) (A.row i.toNat),
           st.2 ++ [ExportLine.mk (getName i)
              (List.zipWith (fun x y => x + y) (Vector.zero st.1) (A.row i.toNat))]) := by
  unfold saveVectorsRow Vector.addRow
  rw [if_pos hi]

/-- On a row that does not exist the loop body of `saveVectors` faults. -/
theorem saveVectorsRow_fault (fault : Int → Fault) (getName : Int → String) (A : Matrix)
    (i : Int) (hi : (A.m : Int) ≤ i) (st : Vector × List ExportLine) :
    saveVectorsRow fault getName A i st = Except.error (fault i) := by
  have hout : ¬ (0 ≤ i ∧ i < (A.m : Int)) := by omega
  unfold saveVectorsRow Vector.addRow
  rw [if_neg hout]

/-- Running the loop body over the rows `c, ..., c + k - 1`, from a vector of the
matrix width, appends the lines of these rows and keeps the width. -/
theorem foldl_saveVectorsRows (getName : Int → String) (A : Matrix) :
    ∀ (k c : Nat) (st : Vector × List ExportLine), st.1.length = A.n →
      ((consecutive (c : Int) k).foldl
          (fun (m : Vector × List ExportLine) (i : Int) =>
            (List.zipWith (fun x y => x + y) (Vector.zero m.1) (A.row i.toNat),
             m.2 ++ [ExportLine.mk (getName i)
                (List.zipWith (fun x y => x + y) (Vector.zero m.1) (A.row i.toNat))]))
          st).1.length = A.n
        ∧ ((consecutive (c : Int) k).foldl
          (fun (m : Vector × List ExportLine) (i : Int) =>
            (List.zipWith (fun x y => x + y) (Vector.zero m.1) (A.row i.toNat),
             m.2 ++ [ExportLine.mk (getName i)
                (List.zipWith (fun x y => x + y) (Vector.zero m.1) (A.row i.toNat))]))
          st).2
          = st.2 ++ (List.range' c k).map
              (fun (i : Nat) => ExportLine.mk (getName (i : Int)) (A.row i)) := by
  intro k
  induction k with
  | zero =>
    intro c st hlen
    simp [consecutive, hlen]
  | succ k ih =>
    intro c st hlen
    have hz : List.zipWith (fun x y => x + y) (Vector.zero st.1) (A.row c) = A.row c :=
      zipWith_zero_add st.1 (A.row c) (by rw [hlen, Matrix.row_length])
    have hrec := ih (c + 1)
      (A.row c, st.2 ++ [ExportLine.mk (getName (c : Int)) (A.row c)])
      (Matrix.row_length A c)
    simp only [consecutive, List.foldl_cons, Int.toNat_ofNat, hz, List.range'_succ,
      List.map_cons]
    have hc : ((c : Int) + 1) = ((c + 1 : Nat) : Int) := by push_cast; ring
    rw [hc]
    refine ⟨hrec.1, ?_⟩
    rw [hrec.2]
    simp

/-- A block of `saveVectors` on a matrix that has at least `count` rows, started
with a vector of the matrix width, writes exactly the prescribed lines. -/
theorem saveVectorsFile_ok (fault : Int → Fault) (getName : Int → String) (A : Matrix)
    (count : Nat) (vec : Vector) (hcount : count ≤ A.m) (hlen : vec.length = A.n) :
    ∃ v, v.length = A.n
      ∧ saveVectorsFile fault getName A (count : Int) vec
          = Except.ok (v, expectedExport getName A count) := by
  unfold saveVectorsFile expectedExport
  by_cases hpos : 0 < count
  · have hposz : (count : Int) > 0 := by omega
    rw [if_pos hposz, if_pos hpos]
    have hloop := forLoop_eq_foldl (fun i => decide (i < (count : Int)))
      (saveVectorsRow fault getName A)
      (fun (i : Int) (m : Vector × List ExportLine) =>
        (List.zipWith (fun x y => x + y) (Vector.zero m.1) (A.row i.toNat),
         m.2 ++ [ExportLine.mk (getName i)
            (List.zipWith (fun x y => x + y) (Vector.zero m.1) (A.row i.toNat))]))
      count ((count : Int).toNat + 1) 0 (vec, []) (by omega)
      (fun j hj => by simp only [decide_eq_true_eq]; omega)
      (by simp only [decide_eq_false_iff_not]; omega)
      (fun j hj t => saveVectorsRow_ok fault getName A _ (by omega) t)
    rw [hloop]
    have hfold := foldl_saveVectorsRows getName A count 0 (vec, []) hlen
    simp only [Nat.cast_zero, List.nil_append] at hfold
    refine ⟨_, hfold.1, ?_⟩
    simp only [hfold.2, List.range_eq_range']
  · have hposz : ¬ (count : Int) > 0 := by omega
    rw [if_neg hposz, if_neg hpos]
    exact ⟨vec, hlen, rfl⟩

/-- A block of `saveVectors` on a matrix with fewer than `count` rows faults at the
first row that the matrix does not have. -/
theorem saveVectorsFile_fault (fault : Int → Fault) (getName : Int → String) (A : Matrix)
    (count : Nat) (vec : Vector) (hcount : A.m < count) :
    saveVectorsFile fault getName A (count : Int) vec
      = Except.error (fault (A.m : Int)) := by
  unfold saveVectorsFile
  have hposz : (count : Int) > 0 := by omega
  rw [if_pos hposz]
  have hloop := forLoop_error (fun i => decide (i < (count : Int)))
    (saveVectorsRow fault getName A)
    (fun (i : Int) (m : Vector × List ExportLine) =>
      (List.zipWith (fun x y => x + y) (Vector.zero m.1) (A.row i.toNat),
       m.2 ++ [ExportLine.mk (getName i)
          (List.zipWith (fun x y => x + y) (Vector.zero m.1) (A.row i.toNat))]))
    (fault (A.m : Int)) A.m ((count : Int).toNat + 1) 0 (vec, []) (by omega)
    (fun j hj => by simp only [decide_eq_true_eq]; omega)
    (fun j hj t => saveVectorsRow_ok fault getName A _ (by omega) t)
    (fun t => by
      have := saveVectorsRow_fault fault getName A (0 + (A.m : Int)) (by omega) t
      rw [this]
      simp)
  rw [hloop]

/-- On matrices with `dim` columns, an input matrix with at least `nwords` rows and
an output matrix with at least `ntargets` rows, `saveVectors` returns and writes
exactly `nwords` lines to the source export and `ntargets` lines to the target
export, line `i` being word `i` (target `i`) followed by row `i` of the input
(output) matrix; an export whose vocabulary is empty is not created. -/
theorem saveVectors_ok (dict : Dictionary) (args : Args) (input output : Matrix)
    (hin : input.n = args.dim) (hout : output.n = args.dim)
    (hwords : dict.nwords ≤ input.m) (htargets : dict.ntargets ≤ output.m) :
    saveVectors dict args input output
      = Except.ok
          { source := expectedExport dict.getWord input dict.nwords
            target := expectedExport dict.getTarget output dict.ntargets } := by
  obtain ⟨v1, hv1, h1⟩ := saveVectorsFile_ok Fault.inputRow dict.getWord input
    dict.nwords (List.replicate args.dim 0) hwords (by simp [hin])
  obtain ⟨v2, _, h2⟩ := saveVectorsFile_ok Fault.outputRow dict.getTarget output
    dict.ntargets v1 htargets (by rw [hv1, hin, hout])
  unfold saveVectors
  rw [h1]
  simp only
  rw [h2]

/-- The lines of a created export: their number, their words, their values and
their number of fields. -/
theorem expectedExport_lines (getName : Int → String) (A : Matrix) (count : Nat) :
    (count = 0 → expectedExport getName A count = none)
      ∧ ∀ ls, expectedExport getName A count = some ls →
          ls.length = count
            ∧ ∀ i, i < count →
                ∃ l, ls.get? i = some l ∧ l.word = getName (i : Int)
                  ∧ l.values = A.row i ∧ l.fieldCount = 1 + A.n := by
  refine ⟨fun h => by simp [expectedExport, h], ?_⟩
  intro ls hls
  unfold expectedExport at hls
  split_ifs at hls with hpos
  have hls2 := (Option.some.inj hls).symm
  subst hls2
  refine ⟨by simp, fun i hi => ?_⟩
  refine ⟨ExportLine.mk (getName (i : Int)) (A.row i), ?_, rfl, rfl, ?_⟩
  · simp [List.getElem?_range hi]
  · simp [ExportLine.fieldCount, Matrix.row_length]

/-- C7, evaluated on the code.  For a dictionary with one source word and two
targets, `train` allocates an output matrix of one row; whatever the entries of
the two matrices after training, `saveVectors` then asks for row 1 of the output
matrix, which does not exist, instead of writing the two lines of the target
export. -/
theorem saveVectors_faults_with_more_targets (u a b : Nat → Nat → ℚ) :
    sampleDictionary.nwords = 1 ∧ sampleDictionary.ntargets = 2
      ∧ (train sampleDictionary sampleArgs u).2.m = 1
      ∧ saveVectors sampleDictionary sampleArgs (train sampleDictionary sampleArgs u).1
          (train sampleDictionary sampleArgs u).2 = Except.error (Fault.outputRow 1)
      ∧ saveVectors sampleDictionary sampleArgs { m := 1, n := 1, entry := a }
          { m := 1, n := 1, entry := b } = Except.error (Fault.outputRow 1) :=
  ⟨rfl, rfl, rfl, rfl, rfl⟩

/-- C10. `train` allocates both matrices with `nwords` rows.  On matrices of these
shapes, with any entries, `saveVectors` never asks for a row that the input matrix
does not have, and it never asks for a row that the output matrix does not have
if and only if `ntargets ≤ nwords`; when `ntargets > nwords` the first row asked
for and missing is row `nwords`. -/
theorem saveVectors_rows_in_range_iff (dict : Dictionary) (args : Args)
    (u : Nat → Nat → ℚ) (input output : Matrix)
    (hinput : input.m = (train dict args u).1.m ∧ input.n = (train dict args u).1.n)
    (houtput : output.m = (train dict args u).2.m ∧ output.n = (train dict args u).2.n) :
    (train dict args u).1.m = dict.nwords
      ∧ (train dict args u).2.m = dict.nwords
      ∧ (∀ i, saveVectors dict args input output ≠ Except.error (Fault.inputRow i))
      ∧ ((∀ i, saveVectors dict args input output ≠ Except.error (Fault.outputRow i))
          ↔ dict.ntargets ≤ dict.nwords)
      ∧ (dict.nwords < dict.ntargets →
          saveVectors dict args input output
            = Except.error (Fault.outputRow (dict.nwords : Int))) := by
  obtain ⟨him, hin⟩ := hinput
  obtain ⟨hom, hon⟩ := houtput
  have him2 : input.m = dict.nwords := him
  have hin2 : input.n = args.dim := hin
  have hom2 : output.m = dict.nwords := hom
  have hon2 : output.n = args.dim := hon
  have hbad : dict.nwords < dict.ntargets →
      saveVectors dict args input output
        = Except.error (Fault.outputRow (dict.nwords : Int)) := by
    intro hlt
    obtain ⟨v1, _, h1⟩ := saveVectorsFile_ok Fault.inputRow dict.getWord input
      dict.nwords (List.replicate args.dim 0) (le_of_eq him2.symm) (by simp [hin2])
    have h2 := saveVectorsFile_fault Fault.outputRow dict.getTarget output
      dict.ntargets v1 (by rw [hom2]; exact hlt)
    unfold saveVectors
    rw [h1]
    simp only
    rw [h2, hom2]
  have hgood : dict.ntargets ≤ dict.nwords →
      saveVectors dict args input output
        = Except.ok
            { source := expectedExport dict.getWord input dict.nwords
              target := expectedExport dict.getTarget output dict.ntargets } :=
    fun hle => saveVectors_ok dict args input output hin2 hon2 (le_of_eq him2.symm)
      (by rw [hom2]; exact hle)
  refine ⟨rfl, rfl, ?_, ⟨?_, ?_⟩, hbad⟩
  · intro i hi
    by_cases hle : dict.ntargets ≤ dict.nwords
    · rw [hgood hle] at hi
      cases hi
    · rw [hbad (not_le.1 hle)] at hi
      cases hi
  · intro hall
    by_contra hle
    exact hall _ (hbad (not_le.1 hle))
  · intro hle i hi
    rw [hgood hle] at hi
    cases hi

/-- An instance of C10: with two source words and one target, `saveVectors` run on
the matrices that `train` allocated does not ask for a missing row 0 of the
output matrix. -/
theorem saveVectors_rows_in_range_iff_witness :
    sampleSmallDictionary.ntargets ≤ sampleSmallDictionary.nwords
      ∧ saveVectors sampleSmallDictionary sampleArgs
          (train sampleSmallDictionary sampleArgs (fun _ _ => 0)).1
          (train sampleSmallDictionary sampleArgs (fun _ _ => 0)).2
        ≠ Except.error (Fault.outputRow 0) :=
  ⟨by decide,
   (saveVectors_rows_in_range_iff sampleSmallDictionary sampleArgs (fun _ _ => 0)
      (train sampleSmallDictionary sampleArgs (fun _ _ => 0)).1
      (train sampleSmallDictionary sampleArgs (fun _ _ => 0)).2
      ⟨rfl, rfl⟩ ⟨rfl, rfl⟩).2.2.2.1.2 (by decide) 0⟩

end Word2Vec
